import Mathlib

/-!
# spc: point-in-polygon report over a KML hazard catalog

A shallow embedding of `spc.go`.  Coordinates are modelled exactly as rational
numbers, the winding accumulator as an integer, instants of time as integers,
and a run-time panic (index out of range) as `none`.  A second embedding of
`isLeft` and `windingNumberTest` follows the float64 arithmetic of the code,
with every difference and product rounded to the nearest float64.
-/

namespace Spc

/-! ## Data model -/

/-- Go `type Coord struct { Lat, Lng float64 }`, with exact coordinates. -/
structure Coord where
  Lat : ℚ
  Lng : ℚ
  deriving DecidableEq, Repr

/-- Go `isLeft(p0, p1, p2)`. -/
def isLeft (p0 p1 p2 : Coord) : ℚ :=
  (p1.Lng - p0.Lng) * (p2.Lat - p0.Lat) - (p2.Lng - p0.Lng) * (p1.Lat - p0.Lat)

/-- Body of the `for` loop of `windingNumberTest` for the edge `(a, b) = (v[i], v[i+1])`:
the new value of `wn`. -/
def windingStep (p a b : Coord) (wn : Int) : Int :=
  if a.Lat ≤ p.Lat then
    if b.Lat > p.Lat then
      if isLeft a b p > 0 then wn + 1 else wn
    else wn
  else
    if b.Lat ≤ p.Lat then
      if isLeft a b p < 0 then wn - 1 else wn
    else wn

/-- The loop `for i := ...; i < len(v)-1; i++` of `windingNumberTest`, started at index `i`
with accumulator `wn`.  The bound `len(v)-1` is a signed integer, as in Go.  `none` is
returned when an index read is out of range (a Go panic) or when the fuel is used up
before the loop condition fails. -/
def windingLoop (p : Coord) (v : List Coord) : Nat → Nat → Int → Option Int
  | 0, i, wn => if (i : Int) < (v.length : Int) - 1 then none else some wn
  | fuel + 1, i, wn =>
    if (i : Int) < (v.length : Int) - 1 then
      match v[i]?, v[i + 1]? with
      | some a, some b => windingLoop p v fuel (i + 1) (windingStep p a b wn)
      | _, _ => none
    else some wn

/-- Go `windingNumberTest(p, v)`: the loop from `i = 0`, `wn = 0`, with `len(v)` units of
fuel. -/
def windingNumberTest (p : Coord) (v : List Coord) : Option Int :=
  windingLoop p v v.length 0 0

/-! ## Specification-side definitions for the winding number -/

/-- Edge `i` of `v` crosses upward through the latitude of `p` with `p` strictly left. -/
def upwardLeft (p : Coord) (v : List Coord) (i : Nat) : Bool :=
  match v[i]?, v[i + 1]? with
  | some a, some b => decide (a.Lat ≤ p.Lat ∧ p.Lat < b.Lat ∧ isLeft a b p > 0)
  | _, _ => false

/-- Edge `i` of `v` crosses downward through the latitude of `p` with `p` strictly right. -/
def downwardRight (p : Coord) (v : List Coord) (i : Nat) : Bool :=
  match v[i]?, v[i + 1]? with
  | some a, some b => decide (a.Lat > p.Lat ∧ p.Lat ≥ b.Lat ∧ isLeft a b p < 0)
  | _, _ => false

/-- Number of indices `i` in `[0, len(v)-2]` satisfying `f`. -/
def countEdges (v : List Coord) (f : Nat → Bool) : Nat :=
  ((List.range (v.length - 1)).filter f).length

/-- Winding accumulator over a list of consecutive vertices, by recursion on the list. -/
def wnFold (p : Coord) : List Coord → Int → Int
  | a :: b :: rest, wn => wnFold p (b :: rest) (windingStep p a b wn)
  | _, wn => wn

/-! ## Strings, category sentences and ring construction -/

/-- Go `strings.Split(s, sep)` for a one-character separator, on the characters of `s`:
the pieces between consecutive separators; always at least one piece. -/
def splitChars (sep : Char) : List Char → List (List Char)
  | [] => [[]]
  | c :: cs =>
    if c = sep then [] :: splitChars sep cs
    else
      match splitChars sep cs with
      | [] => [[c]]
      | w :: ws => (c :: w) :: ws

/-- Go `strings.Split(s, sep)` for a one-character separator. -/
def Split (s : String) (sep : Char) : List String :=
  (splitChars sep s.data).map String.mk

/-- Go `type kmlLinearRing struct`. -/
structure kmlLinearRing where
  CoordData : String
  deriving DecidableEq, Repr

/-- Go `type kmlPlacemark struct`. -/
structure kmlPlacemark where
  BeginStr : String
  EndStr : String
  Name : String
  Outer : kmlLinearRing
  Inner : List kmlLinearRing
  deriving DecidableEq, Repr

/-- Go `type kmlFolder struct`. -/
structure kmlFolder where
  Name : String
  Placemarks : List kmlPlacemark
  deriving DecidableEq, Repr

/-- Go `func (k kmlFolder) Tag() string`.  `none` stands for the panic of the index
expression `words[len(words)-1]`. -/
def kmlFolder.Tag (k : kmlFolder) : Option String :=
  let words := Split k.Name '_'
  match words[words.length - 1]? with
  | none => none
  | some w =>
    some (match w with
      | "cat" => "Categorical Risk for severe weather"
      | "wind" => "Risk of >57 mph gusts within 25 miles"
      | "hail" => "Risk of 1\" hail within 25 miles"
      | "torn" => "Risk of tornado within 25 miles"
      | "sigwind" => "Significant wind (>75 mph gusts) within 25 miles"
      | "sighail" => "Significant hail (>2\") within 25 miles"
      | "sigtorn" => "Significant tornado (EF2 or greater) within 25 miles"
      | _ => "Risk of T'Strm within 12 miles")

/-- The `for _, point := range points` loop of `Coords`, with `results` built so far.
`parseFloat` stands for `strconv.ParseFloat(_, 64)` (`none` when it returns an error);
its values are exact numbers, so the spellings of infinities and NaN are outside the model.
The result is `none` when an index expression `spot[1]` or `spot[0]` is out of range
(a Go panic); otherwise the returned slice and whether the returned error is non-nil. -/
def coordsLoop (parseFloat : String → Option ℚ) :
    List String → List Coord → Option (List Coord × Bool)
  | [], results => some (results, false)
  | point :: rest, results =>
    let spot := Split point ','
    match spot[1]? with
    | none => none
    | some s1 =>
      match parseFloat s1 with
      | none => some (results, true)
      | some lat =>
        match spot[0]? with
        | none => none
        | some s0 =>
          match parseFloat s0 with
          | none => some (results, true)
          | some lng => coordsLoop parseFloat rest (results ++ [{ Lat := lat, Lng := lng }])

/-- Go `func (s kmlLinearRing) Coords() ([]Coord, error)`. -/
def kmlLinearRing.Coords (parseFloat : String → Option ℚ) (s : kmlLinearRing) :
    Option (List Coord × Bool) :=
  coordsLoop parseFloat (Split s.CoordData ' ') []

/-! ## Time stamps -/

/-- An instant of time, counted from the instant of Go's zero `time.Time{}`. -/
abbrev Time := Int

/-- Go `time.Time{}`. -/
def zeroTime : Time := 0

/-- Go `func (k kmlPlacemark) Begin() (time.Time, error)`: `parseTime` stands for
`time.Parse(time.RFC3339, _)`, which returns the zero time together with its error.
`t.In(loc)` keeps the instant; the location `loc` is taken to be loaded. -/
def kmlPlacemark.Begin (parseTime : String → Option Time) (k : kmlPlacemark) : Time × Bool :=
  match parseTime k.BeginStr with
  | some t => (t, false)
  | none => (zeroTime, true)

/-- Go `func (k kmlPlacemark) End() (time.Time, error)`. -/
def kmlPlacemark.End (parseTime : String → Option Time) (k : kmlPlacemark) : Time × Bool :=
  match parseTime k.EndStr with
  | some t => (t, false)
  | none => (zeroTime, true)

/-! ## The report of `main` -/

/-- The library functions `main` depends on. -/
structure Env where
  parseFloat : String → Option ℚ
  parseTime : String → Option Time

/-- A line printed by the reporting part of `main`. -/
inductive ReportLine where
  /-- `fmt.Printf("Valid %s — %s\n\n", ...)` for the interval `(b, e)` -/
  | valid (b e : Time)
  /-- `fmt.Printf("%s: %s\n", folder.Tag(), placemark.Name)` -/
  | matchLine (text : String)
  /-- `fmt.Printf("No significant threat\n")` -/
  | noThreat
  deriving DecidableEq, Repr

/-- The local variables `beginT`, `endT`, `noSignWeather` of `main`, and the lines printed
so far. -/
structure RepState where
  beginT : Time
  endT : Time
  noSignWeather : Bool
  out : List ReportLine
  deriving DecidableEq, Repr

/-- Result of the loop over `placemark.Inner`: an inner ring contained the point
(`continue FolderLoop`), none did, or the program panicked. -/
inductive HoleScan where
  | hit
  | clear
  | panic
  deriving DecidableEq, Repr

/-- The loop `for _, inner := range placemark.Inner` of `main`. -/
def holeLoop (parseFloat : String → Option ℚ) (p : Coord) : List kmlLinearRing → HoleScan
  | [] => .clear
  | inner :: rest =>
    match inner.Coords parseFloat with
    | none => .panic
    | some (shape, _) =>
      match windingNumberTest p shape with
      | none => .panic
      | some wn => if wn ≠ 0 then .hit else holeLoop parseFloat p rest

/-- How one iteration of the placemark loop ends: it falls through to the next placemark,
it executes `continue FolderLoop`, or the program panics. -/
inductive Flow where
  | next (s : RepState)
  | continueFolder (s : RepState)
  | panic (s : RepState)
  deriving DecidableEq, Repr

/-- The interval part of the placemark loop body (source lines 189-197). -/
def announce (parseTime : String → Option Time) (placemark : kmlPlacemark) (s : RepState) :
    RepState :=
  let newBT := (placemark.Begin parseTime).1
  let newET := (placemark.End parseTime).1
  if ¬ (newBT = s.beginT ∧ newET = s.endT) then
    { s with out := s.out ++ [.valid newBT newET], beginT := newBT, endT := newET }
  else s

/-- The body of `for _, placemark := range folder.Placemarks` of `main`. -/
def placemarkStep (env : Env) (p : Coord) (folder : kmlFolder) (placemark : kmlPlacemark)
    (s : RepState) : Flow :=
  let s1 := announce env.parseTime placemark s
  match placemark.Outer.Coords env.parseFloat with
  | none => .panic s1
  | some (shape, _) =>
    match windingNumberTest p shape with
    | none => .panic s1
    | some wn =>
      if wn ≠ 0 then
        match holeLoop env.parseFloat p placemark.Inner with
        | .panic => .panic s1
        | .hit => .continueFolder s1
        | .clear =>
          match folder.Tag with
          | none => .panic s1
          | some tag =>
            .next { s1 with
              out := s1.out ++ [.matchLine (tag ++ ": " ++ placemark.Name)],
              noSignWeather := false }
      else .next s1

/-- The loop `for _, placemark := range folder.Placemarks` of `main`. -/
def placemarkLoop (env : Env) (p : Coord) (folder : kmlFolder) :
    List kmlPlacemark → RepState → Flow
  | [], s => .next s
  | placemark :: rest, s =>
    match placemarkStep env p folder placemark s with
    | .next s1 => placemarkLoop env p folder rest s1
    | .continueFolder s1 => .continueFolder s1
    | .panic s1 => .panic s1

/-- The loop `FolderLoop: for _, folder := range doc.Folders` of `main`; the flag tells
whether the program panicked. -/
def folderLoop (env : Env) (p : Coord) : List kmlFolder → RepState → RepState × Bool
  | [], s => (s, false)
  | folder :: rest, s =>
    match placemarkLoop env p folder folder.Placemarks s with
    | .next s1 => folderLoop env p rest s1
    | .continueFolder s1 => folderLoop env p rest s1
    | .panic s1 => (s1, true)

/-- What a run of the reporting part of `main` printed, and whether it ended in a panic. -/
structure Run where
  out : List ReportLine
  panicked : Bool
  deriving DecidableEq, Repr

/-- The reporting part of `main` (source lines 182-216) for the test point `p` and the
folders of the document. -/
def report (env : Env) (p : Coord) (folders : List kmlFolder) : Run :=
  match folderLoop env p folders
      { beginT := zeroTime, endT := zeroTime, noSignWeather := true, out := [] } with
  | (s, true) => { out := s.out, panicked := true }
  | (s, false) =>
    { out := if s.noSignWeather then s.out ++ [.noThreat] else s.out, panicked := false }

/-! ## Specification-side definitions for the claims on rings -/

/-- The point is treated as contained in the ring: `windingNumberTest(p, v) != 0`. -/
def contained (p : Coord) (v : List Coord) : Bool :=
  match windingNumberTest p v with
  | some wn => wn != 0
  | none => false

/-- The closed axis-aligned rectangle ring `[(a,b),(a,d),(c,d),(c,b),(a,b)]`, as
(lat, lng) pairs. -/
def rectRing (a b c d : ℚ) : List Coord :=
  [⟨a, b⟩, ⟨a, d⟩, ⟨c, d⟩, ⟨c, b⟩, ⟨a, b⟩]

/-- The coordinate `c` moved by the offset `(dLat, dLng)`. -/
def translate (dLat dLng : ℚ) (c : Coord) : Coord :=
  { Lat := c.Lat + dLat, Lng := c.Lng + dLng }

/-! ## Specification-side definitions for closed rings and the convex hull -/

/-- The ring is closed: its first vertex equals its last vertex (the empty sequence
counts as closed). -/
def closedRing (v : List Coord) : Bool :=
  decide (v.head? = v.getLast?)

/-- The point `p` lies outside the convex hull, taken in the real plane, of the vertices
of `v`.  The hull of finitely many points is closed, so outside is strictly outside. -/
def outsideHull (p : Coord) (v : List Coord) : Prop :=
  ((p.Lat : ℝ), (p.Lng : ℝ)) ∉
    convexHull ℝ (Set.image (fun c : Coord => ((c.Lat : ℝ), (c.Lng : ℝ))) {c | c ∈ v})

/-- The vertex `c` lies in the open half-plane bounded by the line through `p` with
normal `(α, β)`. -/
def inHalfPlane (α β : ℝ) (p c : Coord) : Prop :=
  0 < α * ((c.Lat : ℝ) - (p.Lat : ℝ)) + β * ((c.Lng : ℝ) - (p.Lng : ℝ))

/-- One when the vertex lies strictly above the latitude of `p`, zero otherwise. -/
def above (p c : Coord) : Int :=
  if c.Lat > p.Lat then 1 else 0

/-! ## Specification-side definitions for convex rings and the centroid -/

/-- The edges `(v[i], v[i+1])` of a vertex sequence, in order. -/
def edges : List Coord → List (Coord × Coord)
  | a :: b :: rest => (a, b) :: edges (b :: rest)
  | _ => []

/-- The ring is convex: every vertex lies on the left of or on every edge, or every vertex
lies on the right of or on every edge. -/
def convexRing (v : List Coord) : Bool :=
  (edges v).all (fun e => v.all (fun c => decide (0 ≤ isLeft e.1 e.2 c))) ||
  (edges v).all (fun e => v.all (fun c => decide (isLeft e.1 e.2 c ≤ 0)))

/-- The ring has three vertices that are not on one line. -/
def nonCollinear (v : List Coord) : Bool :=
  v.any (fun a => v.any (fun b => v.any (fun c => decide (isLeft a b c ≠ 0))))

/-- The centroid of the vertices of a closed ring: the mean of its vertices, the closing
vertex (which repeats the first) left out. -/
def centroid (v : List Coord) : Coord :=
  { Lat := (v.dropLast.map (fun c => c.Lat)).sum / (v.dropLast.length : ℚ),
    Lng := (v.dropLast.map (fun c => c.Lng)).sum / (v.dropLast.length : ℚ) }

/-! ## Specification-side definitions for the category sentences -/

/-- The characters of `cs` after the last occurrence of `sep`; all of `cs` when `sep`
does not occur. -/
def lastPiece (sep : Char) (cs : List Char) : List Char :=
  (cs.reverse.takeWhile (fun c => c != sep)).reverse

/-- The segment of `name` after its last underscore; the whole name when it has none. -/
def lastSegment (name : String) : String :=
  String.mk (lastPiece '_' name.data)

/-- The table of category sentences. -/
def categoryTable : List (String × String) :=
  [("cat", "Categorical Risk for severe weather"),
   ("wind", "Risk of >57 mph gusts within 25 miles"),
   ("hail", "Risk of 1\" hail within 25 miles"),
   ("torn", "Risk of tornado within 25 miles"),
   ("sigwind", "Significant wind (>75 mph gusts) within 25 miles"),
   ("sighail", "Significant hail (>2\") within 25 miles"),
   ("sigtorn", "Significant tornado (EF2 or greater) within 25 miles")]

/-- The sentence of a category segment: its entry in the table, or the default. -/
def categorySentence (segment : String) : String :=
  (categoryTable.lookup segment).getD "Risk of T'Strm within 12 miles"

/-! ## Specification-side definitions for the claims on the report -/

/-- The vertices `main` gets from `Coords()` for a ring (it ignores the error); empty when
the call panics. -/
def ringOf (env : Env) (r : kmlLinearRing) : List Coord :=
  match r.Coords env.parseFloat with
  | some (shape, _) => shape
  | none => []

/-- The point matches the placemark: non-zero winding number against the outer ring and
zero winding number against every inner ring. -/
def matchesPoint (env : Env) (p : Coord) (pm : kmlPlacemark) : Bool :=
  contained p (ringOf env pm.Outer) && pm.Inner.all (fun r => !contained p (ringOf env r))

/-- The point is inside the outer ring and inside some inner ring of the placemark. -/
def holeHit (env : Env) (p : Coord) (pm : kmlPlacemark) : Bool :=
  contained p (ringOf env pm.Outer) && pm.Inner.any (fun r => contained p (ringOf env r))

/-- The match line of a placemark of a folder: `"<folder tag>: <placemark name>"`. -/
def matchLineOf (f : kmlFolder) (pm : kmlPlacemark) : ReportLine :=
  .matchLine (categorySentence (lastSegment f.Name) ++ ": " ++ pm.Name)

/-- The interval `(validFrom, validUntil)` of a placemark, as `main` reads it. -/
def intervalOf (env : Env) (pm : kmlPlacemark) : Time × Time :=
  ((pm.Begin env.parseTime).1, (pm.End env.parseTime).1)

/-- The placemarks of a folder up to and including the first one with a hole hit. -/
def visited (env : Env) (p : Coord) : List kmlPlacemark → List kmlPlacemark
  | [] => []
  | pm :: rest => if holeHit env p pm then [pm] else pm :: visited env p rest

/-- The catalog in order, each placemark with its folder. -/
def catalogPairs (folders : List kmlFolder) : List (kmlFolder × kmlPlacemark) :=
  folders.flatMap (fun f => f.Placemarks.map (fun pm => (f, pm)))

/-- The placemarks of the catalog that are not skipped after a hole hit in their folder,
in catalog order, each with its folder. -/
def visitedPairs (env : Env) (p : Coord) (folders : List kmlFolder) :
    List (kmlFolder × kmlPlacemark) :=
  folders.flatMap (fun f => (visited env p f.Placemarks).map (fun pm => (f, pm)))

/-- The match lines of a report, in order. -/
def matchLines (out : List ReportLine) : List ReportLine :=
  out.filter (fun l => match l with
    | .matchLine _ => true
    | _ => false)

/-- The intervals announced by a report, in order. -/
def announcements (out : List ReportLine) : List (Time × Time) :=
  out.filterMap (fun l => match l with
    | .valid b e => some (b, e)
    | _ => none)

/-- A sequence of intervals with every element equal to its predecessor removed, `last`
being the predecessor of the first one. -/
def collapse : Time × Time → List (Time × Time) → List (Time × Time)
  | _, [] => []
  | last, x :: xs => if x = last then collapse x xs else x :: collapse x xs

/-- A sequence of intervals with every maximal run of equal consecutive elements replaced
by one element. -/
def collapseRuns : List (Time × Time) → List (Time × Time)
  | [] => []
  | x :: xs => x :: collapse x xs

/-- What one visited placemark adds to the state of the reporter when nothing panics. -/
def emit (env : Env) (p : Coord) (f : kmlFolder) (pm : kmlPlacemark) (s : RepState) :
    RepState :=
  let s1 := announce env.parseTime pm s
  if matchesPoint env p pm then
    { s1 with out := s1.out ++ [matchLineOf f pm], noSignWeather := false }
  else s1

/-- What a list of visited placemarks, each with its folder, adds to the state of the
reporter when nothing panics. -/
def emitPairs (env : Env) (p : Coord) (l : List (kmlFolder × kmlPlacemark)) (s : RepState) :
    RepState :=
  l.foldl (fun s fp => emit env p fp.1 fp.2 s) s

/-- The initial state of the reporter. -/
def initState : RepState :=
  { beginT := zeroTime, endT := zeroTime, noSignWeather := true, out := [] }

/-! ## A sample environment for concrete runs -/

/-- Value of a string of decimal digits. -/
def digitsValue : List Char → Nat → Option Nat
  | [], acc => some acc
  | c :: cs, acc =>
    if '0' ≤ c ∧ c ≤ '9' then digitsValue cs (10 * acc + (c.toNat - 48)) else none

/-- A stand-in for `strconv.ParseFloat(_, 64)` that accepts the non-empty strings of
decimal digits, on which it agrees with the library function. -/
def sampleParseFloat (s : String) : Option ℚ :=
  match s.data with
  | [] => none
  | cs => (digitsValue cs 0).map (fun n => (n : ℚ))

/-- A stand-in for `time.Parse(time.RFC3339, _)` that accepts three time stamps, mapped to
their distance in seconds from the zero time. -/
def sampleParseTime (s : String) : Option Time :=
  if s = "2013-05-19T16:30:00Z" then some 63504577800
  else if s = "2013-05-20T12:00:00Z" then some 63504648000
  else if s = "2013-05-21T12:00:00Z" then some 63504734400
  else none

/-- The sample environment. -/
def sampleEnv : Env :=
  { parseFloat := sampleParseFloat, parseTime := sampleParseTime }

/-- The square ring `[(0,0),(0,4),(4,4),(4,0),(0,0)]` in (lat, lng), written as
`lng,lat` tokens. -/
def sampleSquare : kmlLinearRing :=
  { CoordData := "0,0 4,0 4,4 0,4 0,0" }

/-- The hole ring `[(1,1),(1,3),(3,3),(3,1),(1,1)]` in (lat, lng). -/
def sampleHole : kmlLinearRing :=
  { CoordData := "1,1 3,1 3,3 1,3 1,1" }

/-- A placemark over the square with the hole. -/
def holedPlacemark : kmlPlacemark :=
  { BeginStr := "2013-05-19T16:30:00Z", EndStr := "2013-05-20T12:00:00Z", Name := "5 %",
    Outer := sampleSquare, Inner := [sampleHole] }

/-- A placemark over the square without holes, with a later interval. -/
def plainPlacemark : kmlPlacemark :=
  { BeginStr := "2013-05-20T12:00:00Z", EndStr := "2013-05-21T12:00:00Z", Name := "2 %",
    Outer := sampleSquare, Inner := [] }

/-- A folder: the holed placemark followed by the plain one. -/
def sampleFolder : kmlFolder :=
  { Name := "day1otlk_20130519_1630_torn", Placemarks := [holedPlacemark, plainPlacemark] }

/-- A catalog of one folder: the holed placemark followed by the plain one. -/
def sampleCatalog : List kmlFolder :=
  [sampleFolder]

/-- A catalog of one folder with the plain placemark only. -/
def plainCatalog : List kmlFolder :=
  [{ Name := "day1otlk_20130519_1630_torn", Placemarks := [plainPlacemark] }]

/-- A catalog of one folder with the holed placemark only. -/
def holedCatalog : List kmlFolder :=
  [{ Name := "day1otlk_20130519_1630_torn", Placemarks := [holedPlacemark] }]

/-- A placemark whose outer ring has an empty coordinate string. -/
def emptyRingPlacemark : kmlPlacemark :=
  { BeginStr := "2013-05-19T16:30:00Z", EndStr := "2013-05-20T12:00:00Z", Name := "5 %",
    Outer := { CoordData := "" }, Inner := [] }

/-- A catalog of one folder with the placemark of the empty coordinate string. -/
def emptyRingCatalog : List kmlFolder :=
  [{ Name := "day1otlk_20130519_1630_torn", Placemarks := [emptyRingPlacemark] }]

/-- The state of the reporter carried by the outcome of a loop iteration. -/
def Flow.state : Flow → RepState
  | .next s => s
  | .continueFolder s => s
  | .panic s => s

/-! ## Further sample catalogs -/

/-- A stand-in for `time.Parse(time.RFC3339, _)` that also accepts the time stamp of the
zero time. -/
def zeroStampParseTime (s : String) : Option Time :=
  if s = "0001-01-01T00:00:00Z" then some 0 else sampleParseTime s

/-- The sample environment with the time stamp of the zero time accepted. -/
def zeroStampEnv : Env :=
  { parseFloat := sampleParseFloat, parseTime := zeroStampParseTime }

/-- A placemark over the square whose begin and end are the time stamp of the zero time. -/
def zeroStampPlacemark : kmlPlacemark :=
  { BeginStr := "0001-01-01T00:00:00Z", EndStr := "0001-01-01T00:00:00Z", Name := "2 %",
    Outer := sampleSquare, Inner := [] }

/-- A catalog of one folder with the placemark of the zero time stamps. -/
def zeroStampCatalog : List kmlFolder :=
  [{ Name := "day1otlk_20130519_1630_torn", Placemarks := [zeroStampPlacemark] }]

/-- A placemark over the square whose begin time stamp is not RFC 3339. -/
def badStampPlacemark : kmlPlacemark :=
  { BeginStr := "yesterday", EndStr := "2013-05-20T12:00:00Z", Name := "5 %",
    Outer := sampleSquare, Inner := [] }

/-- A catalog of one folder: the plain placemark followed by the one with the bad begin
time stamp. -/
def badStampCatalog : List kmlFolder :=
  [{ Name := "day1otlk_20130519_1630_torn",
     Placemarks := [plainPlacemark, badStampPlacemark] }]

/-- A placemark whose outer ring is the square followed by a token that is not a pair of
numbers. -/
def brokenRingPlacemark : kmlPlacemark :=
  { BeginStr := "2013-05-19T16:30:00Z", EndStr := "2013-05-20T12:00:00Z", Name := "5 %",
    Outer := { CoordData := "0,0 4,0 4,4 0,4 0,0 x,y" }, Inner := [] }

/-- A catalog of one folder with the placemark of the broken ring. -/
def brokenRingCatalog : List kmlFolder :=
  [{ Name := "day1otlk_20130519_1630_torn", Placemarks := [brokenRingPlacemark] }]

/-! ## float64 arithmetic, for the code as it runs -/

/-- A finite float64 value, written `m * 2^e`. -/
structure F64 where
  m : Int
  e : Int
  deriving DecidableEq, Repr

/-- The exact value of a float64. -/
def F64.toRat (x : F64) : ℚ :=
  (x.m : ℚ) * (2 : ℚ) ^ x.e

/-- The number of binary digits of `n`, by halving at most `fuel` times. -/
def bitLengthAux : Nat → Nat → Nat
  | 0, _ => 0
  | fuel + 1, n => if n = 0 then 0 else bitLengthAux fuel (n / 2) + 1

/-- The number of binary digits of `n`. -/
def bitLength (n : Nat) : Nat :=
  bitLengthAux n n

/-- The float64 nearest to `m * 2^e`, ties going to the even significand (53 binary digits,
least exponent `-1074`); `none` when the result is beyond the finite range. -/
def roundF64 (m e : Int) : Option F64 :=
  let a := m.natAbs
  let t := max (e + (bitLength a : Int) - 53) (-1074)
  if t ≤ e then
    if (bitLength a : Int) + e > 1024 then none else some { m := m, e := e }
  else
    let s := (t - e).toNat
    let q := a / 2 ^ s
    let r := a % 2 ^ s
    let half := 2 ^ (s - 1)
    let q1 := if r > half ∨ (r = half ∧ q % 2 = 1) then q + 1 else q
    if (bitLength q1 : Int) + t > 1024 then none
    else some { m := m.sign * (q1 : Int), e := t }

/-- Go `x - y` on float64. -/
def F64.sub (x y : F64) : Option F64 :=
  let e := min x.e y.e
  roundF64 (x.m * 2 ^ (x.e - e).toNat - y.m * 2 ^ (y.e - e).toNat) e

/-- Go `x * y` on float64. -/
def F64.mul (x y : F64) : Option F64 :=
  roundF64 (x.m * y.m) (x.e + y.e)

/-- Go `x <= y` on float64. -/
def F64.le (x y : F64) : Bool :=
  let e := min x.e y.e
  decide (x.m * 2 ^ (x.e - e).toNat ≤ y.m * 2 ^ (y.e - e).toNat)

/-- Go `x < y` on float64. -/
def F64.lt (x y : F64) : Bool :=
  let e := min x.e y.e
  decide (x.m * 2 ^ (x.e - e).toNat < y.m * 2 ^ (y.e - e).toNat)

/-- Go `type Coord struct { Lat, Lng float64 }`, with float64 coordinates. -/
structure CoordF64 where
  Lat : F64
  Lng : F64
  deriving DecidableEq, Repr

/-- The exact position of a float64 coordinate. -/
def CoordF64.exact (c : CoordF64) : Coord :=
  { Lat := c.Lat.toRat, Lng := c.Lng.toRat }

/-- Go `isLeft(p0, p1, p2)` in float64: every difference and product is rounded, in the
order of the expression, with no fused multiply-add (as compiled for amd64). -/
def isLeftF64 (p0 p1 p2 : CoordF64) : Option F64 := do
  let d1 ← F64.sub p1.Lng p0.Lng
  let d2 ← F64.sub p2.Lat p0.Lat
  let m1 ← F64.mul d1 d2
  let d3 ← F64.sub p2.Lng p0.Lng
  let d4 ← F64.sub p1.Lat p0.Lat
  let m2 ← F64.mul d3 d4
  F64.sub m1 m2

/-- Body of the `for` loop of `windingNumberTest` in float64. -/
def windingStepF64 (p a b : CoordF64) (wn : Int) : Option Int :=
  if F64.le a.Lat p.Lat then
    if F64.lt p.Lat b.Lat then do
      let l ← isLeftF64 a b p
      if 0 < l.m then some (wn + 1) else some wn
    else some wn
  else
    if F64.le b.Lat p.Lat then do
      let l ← isLeftF64 a b p
      if l.m < 0 then some (wn - 1) else some wn
    else some wn

/-- The loop of `windingNumberTest` in float64, from index `i` with accumulator `wn`;
`none` for an index out of range, used-up fuel, or a value beyond the finite range. -/
def windingLoopF64 (p : CoordF64) (v : List CoordF64) : Nat → Nat → Int → Option Int
  | 0, i, wn => if (i : Int) < (v.length : Int) - 1 then none else some wn
  | fuel + 1, i, wn =>
    if (i : Int) < (v.length : Int) - 1 then
      match v[i]?, v[i + 1]? with
      | some a, some b =>
        match windingStepF64 p a b wn with
        | some wn1 => windingLoopF64 p v fuel (i + 1) wn1
        | none => none
      | _, _ => none
    else some wn

/-- Go `windingNumberTest(p, v)` in float64. -/
def windingNumberTestF64 (p : CoordF64) (v : List CoordF64) : Option Int :=
  windingLoopF64 p v v.length 0 0

/-- The point `(-1.4, 0.7)` in float64. -/
def nearEdgePoint : CoordF64 :=
  { Lat := ⟨-3152519739159347, -51⟩, Lng := ⟨3152519739159347, -52⟩ }

/-- The closed triangle `[(-1.9,1.2),(3.2,-3.9),(3.2,5),(-1.9,1.2)]` in float64. -/
def nearEdgeTriangle : List CoordF64 :=
  [{ Lat := ⟨-4278419646001971, -51⟩, Lng := ⟨5404319552844595, -52⟩ },
   { Lat := ⟨3602879701896397, -50⟩, Lng := ⟨-8782019273372467, -51⟩ },
   { Lat := ⟨3602879701896397, -50⟩, Lng := ⟨5, 0⟩ },
   { Lat := ⟨-4278419646001971, -51⟩, Lng := ⟨5404319552844595, -52⟩ }]

/-- The float64 point `(35.94145192336529, -106.42130289656754)`. -/
def thinCentroid : CoordF64 :=
  { Lat := ⟨2529154835769102, -46⟩, Lng := ⟨-7488733438582254, -46⟩ }

/-- The closed float64 triangle with the vertices `(26.992905788978973, -92.55834962153357)`,
`(41.060420364596254, -114.35153192499786)` and `(39.77102961652065, -112.3540271431712)`,
whose centroid is `thinCentroid`. -/
def thinTriangle : List CoordF64 :=
  [{ Lat := ⟨1899456882076447, -46⟩, Lng := ⟨-6513214826024479, -46⟩ },
   { Lat := ⟨2889370216463619, -46⟩, Lng := ⟨-8046773696354152, -46⟩ },
   { Lat := ⟨2798637408767240, -46⟩, Lng := ⟨-7906211793368131, -46⟩ },
   { Lat := ⟨1899456882076447, -46⟩, Lng := ⟨-6513214826024479, -46⟩ }]

/-- The float64 square `[(0,0),(0,4),(4,4),(4,0),(0,0)]`. -/
def squareF64 : List CoordF64 :=
  [{ Lat := ⟨0, 0⟩, Lng := ⟨0, 0⟩ }, { Lat := ⟨0, 0⟩, Lng := ⟨4, 0⟩ },
   { Lat := ⟨4, 0⟩, Lng := ⟨4, 0⟩ }, { Lat := ⟨4, 0⟩, Lng := ⟨0, 0⟩ },
   { Lat := ⟨0, 0⟩, Lng := ⟨0, 0⟩ }]

/-- The interval remembered after a sequence of regions: that of the last one, the pair of
zero times when there is none. -/
def lastIntervalOf (l : List (Time × Time)) : Time × Time :=
  l.getLast?.getD (zeroTime, zeroTime)

/-! ## Lemmas on the winding loop -/

theorem windingLoop_eq_wnFold (p : Coord) (v : List Coord) :
    ∀ (fuel i : Nat) (wn : Int), v.length ≤ fuel + i →
      windingLoop p v fuel i wn = some (wnFold p (v.drop i) wn) := by
  intro fuel
  induction fuel with
  | zero =>
    intro i wn h
    have hd : v.drop i = [] := List.drop_eq_nil_of_le (by omega)
    simp only [windingLoop, hd, wnFold]
    rw [if_neg (by omega)]
  | succ n ih =>
    intro i wn h
    by_cases hc : (i : Int) < (v.length : Int) - 1
    · have h1 : i < v.length := by omega
      have h2 : i + 1 < v.length := by omega
      have hd : v.drop i = v[i] :: v[i + 1] :: v.drop (i + 2) := by
        rw [List.drop_eq_getElem_cons h1, List.drop_eq_getElem_cons h2]
      have hd1 : v.drop (i + 1) = v[i + 1] :: v.drop (i + 2) :=
        List.drop_eq_getElem_cons h2
      simp only [windingLoop, if_pos hc, List.getElem?_eq_getElem h1,
        List.getElem?_eq_getElem h2]
      rw [ih (i + 1) _ (by omega), hd, hd1]
      simp only [wnFold]
    · simp only [windingLoop, if_neg hc]
      have hlen : (v.drop i).length ≤ 1 := by
        rw [List.length_drop]; omega
      match hv : v.drop i, hlen with
      | [], _ => simp [wnFold]
      | [_], _ => simp [wnFold]

theorem windingNumberTest_eq_wnFold (p : Coord) (v : List Coord) :
    windingNumberTest p v = some (wnFold p v 0) := by
  have h := windingLoop_eq_wnFold p v v.length 0 0 (by omega)
  simpa [windingNumberTest] using h

theorem windingStep_eq (p a b : Coord) (wn : Int) :
    windingStep p a b wn
      = wn + (if a.Lat ≤ p.Lat ∧ p.Lat < b.Lat ∧ isLeft a b p > 0 then 1 else 0)
           - (if a.Lat > p.Lat ∧ p.Lat ≥ b.Lat ∧ isLeft a b p < 0 then 1 else 0) := by
  unfold windingStep
  by_cases h1 : a.Lat ≤ p.Lat
  · have h1n : ¬ a.Lat > p.Lat := not_lt.mpr h1
    by_cases h2 : b.Lat > p.Lat
    · by_cases h3 : isLeft a b p > 0 <;> simp [h1, h1n, h2, h3]
    · simp [h1, h1n, h2]
  · have h1p : a.Lat > p.Lat := not_le.mp h1
    by_cases h2 : b.Lat ≤ p.Lat
    · by_cases h3 : isLeft a b p < 0 <;> simp [h1, h1p, h2, h3]
    · simp [h1, h1p, h2]

theorem countEdges_cons_cons (a b : Coord) (rest : List Coord) (f : Nat → Bool) :
    countEdges (a :: b :: rest) f
      = (if f 0 then 1 else 0) + countEdges (b :: rest) (fun i => f (i + 1)) := by
  unfold countEdges
  have hl : (a :: b :: rest).length - 1 = ((b :: rest).length - 1) + 1 := by simp
  rw [hl, List.range_succ_eq_map, List.filter_cons]
  have hm : List.filter f (List.map Nat.succ (List.range ((b :: rest).length - 1)))
      = List.map Nat.succ
          (List.filter (fun i => f (i + 1)) (List.range ((b :: rest).length - 1))) := by
    rw [List.filter_map]; rfl
  rw [hm]
  by_cases h0 : f 0 = true
  · simp [h0]; omega
  · simp [h0]

theorem wnFold_eq_counts (p : Coord) :
    ∀ (v : List Coord) (wn : Int),
      wnFold p v wn
        = wn + (countEdges v (upwardLeft p v) : Int) - (countEdges v (downwardRight p v) : Int)
  | [], wn => by simp [wnFold, countEdges]
  | [_], wn => by simp [wnFold, countEdges]
  | a :: b :: rest, wn => by
    have ih := wnFold_eq_counts p (b :: rest) (windingStep p a b wn)
    have hu : (fun i => upwardLeft p (a :: b :: rest) (i + 1)) = upwardLeft p (b :: rest) := by
      funext i; simp [upwardLeft]
    have hd : (fun i => downwardRight p (a :: b :: rest) (i + 1))
        = downwardRight p (b :: rest) := by
      funext i; simp [downwardRight]
    rw [wnFold, ih, countEdges_cons_cons, countEdges_cons_cons, hu, hd, windingStep_eq]
    have hu0 : upwardLeft p (a :: b :: rest) 0
        = decide (a.Lat ≤ p.Lat ∧ p.Lat < b.Lat ∧ isLeft a b p > 0) := by
      simp [upwardLeft]
    have hd0 : downwardRight p (a :: b :: rest) 0
        = decide (a.Lat > p.Lat ∧ p.Lat ≥ b.Lat ∧ isLeft a b p < 0) := by
      simp [downwardRight]
    rw [hu0, hd0]
    by_cases hU : a.Lat ≤ p.Lat ∧ p.Lat < b.Lat ∧ isLeft a b p > 0
    · by_cases hD : a.Lat > p.Lat ∧ p.Lat ≥ b.Lat ∧ isLeft a b p < 0
      · rw [if_pos hU, if_pos hD, decide_eq_true hU, decide_eq_true hD]
        simp only [if_true]; push_cast; ring
      · rw [if_pos hU, if_neg hD, decide_eq_true hU, decide_eq_false hD]
        simp only [if_true, Bool.false_eq_true, if_false]; push_cast; ring
    · by_cases hD : a.Lat > p.Lat ∧ p.Lat ≥ b.Lat ∧ isLeft a b p < 0
      · rw [if_neg hU, if_pos hD, decide_eq_false hU, decide_eq_true hD]
        simp only [if_true, Bool.false_eq_true, if_false]; push_cast; ring
      · rw [if_neg hU, if_neg hD, decide_eq_false hU, decide_eq_false hD]
        simp only [Bool.false_eq_true, if_false]; push_cast; ring

/-- C1: `windingNumberTest(p, v)` returns the number of upward crossings with `p` strictly
left minus the number of downward crossings with `p` strictly right, counted over the
edge indices `0 .. len(v)-2`; the point is treated as contained iff that value is
non-zero. -/
theorem windingNumberTest_eq_crossings (p : Coord) (v : List Coord) :
    windingNumberTest p v
        = some ((countEdges v (upwardLeft p v) : Int)
            - (countEdges v (downwardRight p v) : Int)) ∧
    (contained p v = true ↔
      (countEdges v (upwardLeft p v) : Int) - (countEdges v (downwardRight p v) : Int) ≠ 0) := by
  have h : windingNumberTest p v
      = some ((countEdges v (upwardLeft p v) : Int)
          - (countEdges v (downwardRight p v) : Int)) := by
    rw [windingNumberTest_eq_wnFold, wnFold_eq_counts]
    simp
  refine ⟨h, ?_⟩
  simp [contained, h]

/-! ## C6: the axis-aligned rectangle -/

theorem windingStep_flat (p a b : Coord) (h : a.Lat = b.Lat) (wn : Int) :
    windingStep p a b wn = wn := by
  unfold windingStep
  split_ifs <;> first | rfl | (exfalso; linarith)

theorem windingStep_vertical_up (a c d x y : ℚ) (hac : a < c) (wn : Int) :
    windingStep ⟨x, y⟩ ⟨a, d⟩ ⟨c, d⟩ wn = if a ≤ x ∧ x < c ∧ y < d then wn + 1 else wn := by
  have hl : isLeft ⟨a, d⟩ ⟨c, d⟩ ⟨x, y⟩ = (d - y) * (c - a) := by
    simp only [isLeft]; ring
  have hca : 0 < c - a := by linarith
  unfold windingStep
  rw [hl]
  dsimp only
  by_cases h1 : a ≤ x
  · by_cases h2 : x < c
    · by_cases h3 : y < d
      · have : (d - y) * (c - a) > 0 := mul_pos (by linarith) hca
        simp [h1, h2, h3, this]
      · have : ¬ (d - y) * (c - a) > 0 := by
          have : (d - y) * (c - a) ≤ 0 := mul_nonpos_of_nonpos_of_nonneg (by linarith) hca.le
          linarith
        simp [h1, h2, h3, this]
    · simp [h1, h2]
  · have h2 : ¬ c ≤ x := by intro h; linarith
    simp [h1, h2]

theorem windingStep_vertical_down (a b c x y : ℚ) (hac : a < c) (wn : Int) :
    windingStep ⟨x, y⟩ ⟨c, b⟩ ⟨a, b⟩ wn = if a ≤ x ∧ x < c ∧ y < b then wn - 1 else wn := by
  have hl : isLeft ⟨c, b⟩ ⟨a, b⟩ ⟨x, y⟩ = (y - b) * (c - a) := by
    simp only [isLeft]; ring
  have hca : 0 < c - a := by linarith
  unfold windingStep
  rw [hl]
  dsimp only
  by_cases h1 : c ≤ x
  · have h2 : ¬ x < c := not_lt.mpr h1
    have h3 : ¬ a > x := by intro h; linarith
    simp [h1, h2, h3]
  · have h1x : x < c := not_le.mp h1
    by_cases h2 : a ≤ x
    · by_cases h3 : y < b
      · have : (y - b) * (c - a) < 0 := mul_neg_of_neg_of_pos (by linarith) hca
        simp [h1, h1x, h2, h3, this]
      · have : ¬ (y - b) * (c - a) < 0 := by
          have : 0 ≤ (y - b) * (c - a) := mul_nonneg (by linarith) hca.le
          linarith
        simp [h1, h1x, h2, h3, this]
    · simp [h1, h1x, h2]

theorem rect_wnFold (a b c d x y : ℚ) (hac : a < c) :
    wnFold ⟨x, y⟩ (rectRing a b c d) 0
      = (if a ≤ x ∧ x < c ∧ y < d then 1 else 0) - (if a ≤ x ∧ x < c ∧ y < b then 1 else 0) := by
  simp only [rectRing, wnFold]
  rw [windingStep_flat _ ⟨a, b⟩ ⟨a, d⟩ rfl, windingStep_vertical_up a c d x y hac,
    windingStep_flat _ ⟨c, d⟩ ⟨c, b⟩ rfl, windingStep_vertical_down a b c x y hac]
  split_ifs <;> simp

/-- C6: for the closed rectangle ring with `a < c` and `b < d`, `windingNumberTest` is
non-zero at every point strictly inside and zero at every point strictly outside. -/
theorem windingNumberTest_rectangle (a b c d x y : ℚ) (hac : a < c) (hbd : b < d) :
    (a < x ∧ x < c ∧ b < y ∧ y < d →
        ∃ wn, windingNumberTest ⟨x, y⟩ (rectRing a b c d) = some wn ∧ wn ≠ 0) ∧
    (x < a ∨ x > c ∨ y < b ∨ y > d →
        windingNumberTest ⟨x, y⟩ (rectRing a b c d) = some 0) := by
  rw [windingNumberTest_eq_wnFold, rect_wnFold a b c d x y hac]
  constructor
  · rintro ⟨h1, h2, h3, h4⟩
    refine ⟨1, ?_, by decide⟩
    have e1 : a ≤ x ∧ x < c ∧ y < d := ⟨h1.le, h2, h4⟩
    have e2 : ¬ (a ≤ x ∧ x < c ∧ y < b) := by rintro ⟨_, _, h⟩; linarith
    rw [if_pos e1, if_neg e2]; rfl
  · intro h
    by_cases hx : a ≤ x ∧ x < c
    · rcases h with h | h | h | h
      · linarith [hx.1]
      · linarith [hx.2]
      · have e1 : a ≤ x ∧ x < c ∧ y < d := ⟨hx.1, hx.2, by linarith⟩
        have e2 : a ≤ x ∧ x < c ∧ y < b := ⟨hx.1, hx.2, h⟩
        rw [if_pos e1, if_pos e2]; rfl
      · have e1 : ¬ (a ≤ x ∧ x < c ∧ y < d) := by rintro ⟨_, _, h'⟩; linarith
        have e2 : ¬ (a ≤ x ∧ x < c ∧ y < b) := by rintro ⟨_, _, h'⟩; linarith
        rw [if_neg e1, if_neg e2]; rfl
    · have e1 : ¬ (a ≤ x ∧ x < c ∧ y < d) := by rintro ⟨h1, h2, _⟩; exact hx ⟨h1, h2⟩
      have e2 : ¬ (a ≤ x ∧ x < c ∧ y < b) := by rintro ⟨h1, h2, _⟩; exact hx ⟨h1, h2⟩
      rw [if_neg e1, if_neg e2]; rfl

theorem windingNumberTest_rectangle_witness :
    ((0:ℚ) < 4 ∧ (0:ℚ) < 4) ∧
    (∃ wn, windingNumberTest ⟨2, 2⟩ (rectRing 0 0 4 4) = some wn ∧ wn ≠ 0) ∧
    windingNumberTest ⟨5, 5⟩ (rectRing 0 0 4 4) = some 0 :=
  ⟨⟨by norm_num, by norm_num⟩,
   (windingNumberTest_rectangle 0 0 4 4 2 2 (by norm_num) (by norm_num)).1 (by norm_num),
   (windingNumberTest_rectangle 0 0 4 4 5 5 (by norm_num) (by norm_num)).2 (by norm_num)⟩

/-! ## C8: translation invariance -/

theorem isLeft_translate (dLat dLng : ℚ) (p0 p1 p2 : Coord) :
    isLeft (translate dLat dLng p0) (translate dLat dLng p1) (translate dLat dLng p2)
      = isLeft p0 p1 p2 := by
  simp only [isLeft, translate]; ring

theorem windingStep_translate (dLat dLng : ℚ) (p a b : Coord) (wn : Int) :
    windingStep (translate dLat dLng p) (translate dLat dLng a) (translate dLat dLng b) wn
      = windingStep p a b wn := by
  unfold windingStep
  rw [isLeft_translate]
  simp only [translate, add_le_add_iff_right, gt_iff_lt, add_lt_add_iff_right]

theorem wnFold_translate (dLat dLng : ℚ) (p : Coord) :
    ∀ (v : List Coord) (wn : Int),
      wnFold (translate dLat dLng p) (v.map (translate dLat dLng)) wn = wnFold p v wn
  | [], wn => by simp [wnFold]
  | [_], wn => by simp [wnFold]
  | a :: b :: rest, wn => by
    have ih := wnFold_translate dLat dLng p (b :: rest) (windingStep p a b wn)
    simp only [List.map_cons, wnFold, windingStep_translate] at ih ⊢
    exact ih

/-- C8: translating the point and every vertex by the same offset leaves the value of
`windingNumberTest` unchanged, and `isLeft` is unchanged when its three arguments are
translated by the same offset. -/
theorem windingNumberTest_translate (dLat dLng : ℚ) (p : Coord) (v : List Coord) :
    windingNumberTest (translate dLat dLng p) (v.map (translate dLat dLng))
        = windingNumberTest p v ∧
    ∀ p0 p1 p2 : Coord,
      isLeft (translate dLat dLng p0) (translate dLat dLng p1) (translate dLat dLng p2)
        = isLeft p0 p1 p2 := by
  refine ⟨?_, isLeft_translate dLat dLng⟩
  rw [windingNumberTest_eq_wnFold, windingNumberTest_eq_wnFold, wnFold_translate]

/-! ## C9: the category sentence of a folder -/

theorem splitChars_ne_nil (sep : Char) : ∀ cs : List Char, splitChars sep cs ≠ []
  | [] => by simp [splitChars]
  | c :: cs => by
    unfold splitChars
    split_ifs
    · simp
    · split <;> simp

theorem splitChars_of_not_mem (sep : Char) :
    ∀ cs : List Char, sep ∉ cs → splitChars sep cs = [cs]
  | [], _ => by simp [splitChars]
  | c :: cs, h => by
    have hc : ¬ c = sep := fun e => h (by simp [e])
    have hcs : sep ∉ cs := fun e => h (by simp [e])
    simp [splitChars, hc, splitChars_of_not_mem sep cs hcs]

theorem lastPiece_of_not_mem (sep : Char) (cs : List Char) (h : sep ∉ cs) :
    lastPiece sep cs = cs := by
  unfold lastPiece
  rw [List.takeWhile_eq_self_iff.mpr, List.reverse_reverse]
  intro x hx
  have : x ∈ cs := List.mem_reverse.mp hx
  simp only [bne_iff_ne, ne_eq]
  rintro rfl
  exact h this

theorem takeWhile_append_of_exists (f : Char → Bool) :
    ∀ (l t : List Char), (∃ x ∈ l, f x = false) → (l ++ t).takeWhile f = l.takeWhile f
  | [], _, h => by simp at h
  | a :: l, t, h => by
    by_cases ha : f a = true
    · have h' : ∃ x ∈ l, f x = false := by
        obtain ⟨x, hx, hfx⟩ := h
        rcases List.mem_cons.mp hx with rfl | hx
        · rw [ha] at hfx; cases hfx
        · exact ⟨x, hx, hfx⟩
      simp [List.takeWhile, ha, takeWhile_append_of_exists f l t h']
    · simp [List.takeWhile, ha]

theorem lastPiece_cons_of_mem (sep c : Char) (cs : List Char) (h : sep ∈ cs) :
    lastPiece sep (c :: cs) = lastPiece sep cs := by
  unfold lastPiece
  rw [List.reverse_cons, takeWhile_append_of_exists]
  exact ⟨sep, List.mem_reverse.mpr h, by simp⟩

theorem lastPiece_cons_sep (sep : Char) (cs : List Char) :
    lastPiece sep (sep :: cs) = lastPiece sep cs := by
  by_cases h : sep ∈ cs
  · exact lastPiece_cons_of_mem sep sep cs h
  · rw [lastPiece_of_not_mem sep cs h]
    unfold lastPiece
    rw [List.reverse_cons, List.takeWhile_append]
    have hall : List.takeWhile (fun c => c != sep) cs.reverse = cs.reverse := by
      rw [List.takeWhile_eq_self_iff]
      intro x hx
      have : x ∈ cs := List.mem_reverse.mp hx
      simp only [bne_iff_ne, ne_eq]
      rintro rfl
      exact h this
    simp [hall, List.takeWhile]

theorem splitChars_of_mem (sep : Char) :
    ∀ cs : List Char, sep ∈ cs → ∃ w w2 ws, splitChars sep cs = w :: w2 :: ws
  | [], h => by simp at h
  | c :: cs, h => by
    by_cases hc : c = sep
    · obtain ⟨w, ws, hw⟩ := List.exists_cons_of_ne_nil (splitChars_ne_nil sep cs)
      exact ⟨[], w, ws, by simp [splitChars, hc, hw]⟩
    · have hm : sep ∈ cs := by
        rcases List.mem_cons.mp h with e | e
        · exact absurd e.symm hc
        · exact e
      obtain ⟨w, w2, ws, hw⟩ := splitChars_of_mem sep cs hm
      exact ⟨c :: w, w2, ws, by simp [splitChars, hc, hw]⟩

theorem splitChars_getLast? (sep : Char) :
    ∀ cs : List Char, (splitChars sep cs).getLast? = some (lastPiece sep cs)
  | [] => by simp [splitChars, lastPiece]
  | c :: cs => by
    have ih := splitChars_getLast? sep cs
    by_cases hc : c = sep
    · subst hc
      rw [lastPiece_cons_sep]
      obtain ⟨w, ws, hw⟩ := List.exists_cons_of_ne_nil (splitChars_ne_nil c cs)
      simp only [splitChars, if_true, hw, List.getLast?_cons_cons] at ih ⊢
      exact ih
    · by_cases hm : sep ∈ cs
      · rw [lastPiece_cons_of_mem sep c cs hm]
        obtain ⟨w, w2, ws, hw⟩ := splitChars_of_mem sep cs hm
        simp only [splitChars, if_neg hc, hw, List.getLast?_cons_cons] at ih ⊢
        exact ih
      · rw [splitChars_of_not_mem sep (c :: cs) (by simp [hm, Ne.symm hc]),
          lastPiece_of_not_mem sep (c :: cs) (by simp [hm, Ne.symm hc])]
        simp

theorem Split_last (s : String) (sep : Char) :
    (Split s sep)[(Split s sep).length - 1]? = some (String.mk (lastPiece sep s.data)) := by
  rw [← List.getLast?_eq_getElem?]
  simp [Split, List.getLast?_map, splitChars_getLast?]

theorem Tag_eq (k : kmlFolder) : k.Tag = some (categorySentence (lastSegment k.Name)) := by
  have hl : lastSegment k.Name = String.mk (lastPiece '_' k.Name.data) := rfl
  unfold kmlFolder.Tag
  simp only [Split_last]
  rw [hl]
  generalize String.mk (lastPiece '_' k.Name.data) = w
  simp only [categorySentence, categoryTable]
  congr 1
  split <;> first | rfl | skip
  rename_i h1 h2 h3 h4 h5 h6 h7
  have e : ∀ s : String, (w = s → False) → (w == s) = false := fun s h => by simpa using h
  simp only [List.lookup, e _ h1, e _ h2, e _ h3, e _ h4, e _ h5, e _ h6, e _ h7,
    Option.getD_none]

/-- C9: `Tag` never fails and depends only on the segment after the last underscore of the
folder name; the seven known segments have their own sentences and every other segment,
the empty one included, has the default sentence. -/
theorem Tag_total (k : kmlFolder) :
    k.Tag = some (categorySentence (lastSegment k.Name)) ∧
    categorySentence "cat" = "Categorical Risk for severe weather" ∧
    categorySentence "wind" = "Risk of >57 mph gusts within 25 miles" ∧
    categorySentence "hail" = "Risk of 1\" hail within 25 miles" ∧
    categorySentence "torn" = "Risk of tornado within 25 miles" ∧
    categorySentence "sigwind" = "Significant wind (>75 mph gusts) within 25 miles" ∧
    categorySentence "sighail" = "Significant hail (>2\") within 25 miles" ∧
    categorySentence "sigtorn" = "Significant tornado (EF2 or greater) within 25 miles" ∧
    categorySentence "" = "Risk of T'Strm within 12 miles" ∧
    ∀ seg : String,
      seg ∉ ["cat", "wind", "hail", "torn", "sigwind", "sighail", "sigtorn"] →
      categorySentence seg = "Risk of T'Strm within 12 miles" := by
  refine ⟨Tag_eq k, rfl, rfl, rfl, rfl, rfl, rfl, rfl, rfl, ?_⟩
  intro seg hseg
  simp only [List.mem_cons, List.mem_singleton, List.not_mem_nil, or_false, not_or] at hseg
  obtain ⟨h1, h2, h3, h4, h5, h6, h7⟩ := hseg
  have e : ∀ s : String, ¬ seg = s → (seg == s) = false := fun s h => by simpa using h
  simp only [categorySentence, categoryTable, List.lookup, e _ h1, e _ h2, e _ h3, e _ h4,
    e _ h5, e _ h6, e _ h7, Option.getD_none]

theorem Tag_total_witness :
    kmlFolder.Tag { Name := "day1otlk_20130519_tstm", Placemarks := [] }
        = some (categorySentence (lastSegment "day1otlk_20130519_tstm")) ∧
    categorySentence "tstm" = "Risk of T'Strm within 12 miles" :=
  ⟨(Tag_total { Name := "day1otlk_20130519_tstm", Placemarks := [] }).1,
   (Tag_total { Name := "day1otlk_20130519_tstm", Placemarks := [] }).2.2.2.2.2.2.2.2.2
      "tstm" (by decide)⟩

/-! ## The reporting loops -/

theorem contained_eq (p : Coord) (v : List Coord) :
    contained p v = (wnFold p v 0 != 0) := by
  simp [contained, windingNumberTest_eq_wnFold]

theorem holeLoop_cases (env : Env) (p : Coord) :
    ∀ inner : List kmlLinearRing,
      (holeLoop env.parseFloat p inner = .clear ∧
          inner.any (fun r => contained p (ringOf env r)) = false) ∨
      (holeLoop env.parseFloat p inner = .hit ∧
          inner.any (fun r => contained p (ringOf env r)) = true) ∨
      holeLoop env.parseFloat p inner = .panic
  | [] => by simp [holeLoop]
  | r :: rest => by
    unfold holeLoop
    cases hc : r.Coords env.parseFloat with
    | none => simp
    | some res =>
      obtain ⟨shape, e⟩ := res
      have hr : ringOf env r = shape := by simp [ringOf, hc]
      simp only [windingNumberTest_eq_wnFold, List.any_cons, hr, contained_eq]
      by_cases hw : wnFold p shape 0 = 0
      · rcases holeLoop_cases env p rest with h | h | h
        · left; simp [hw, h.1]; simpa [contained_eq] using h.2
        · right; left; simp [hw, h.1]; simpa [contained_eq] using h.2
        · right; right; simp [hw, h]
      · right; left; simp [hw]

theorem any_false_iff_all_not (p : Coord) (env : Env) (inner : List kmlLinearRing) :
    inner.all (fun r => !contained p (ringOf env r))
      = !inner.any (fun r => contained p (ringOf env r)) := by
  induction inner with
  | nil => simp
  | cons r rest ih => simp [List.all_cons, List.any_cons, ih]

theorem placemarkStep_cases (env : Env) (p : Coord) (f : kmlFolder) (pm : kmlPlacemark)
    (s : RepState) :
    (placemarkStep env p f pm s = .next (emit env p f pm s) ∧ holeHit env p pm = false) ∨
    (placemarkStep env p f pm s = .continueFolder (announce env.parseTime pm s) ∧
        holeHit env p pm = true ∧ matchesPoint env p pm = false) ∨
    placemarkStep env p f pm s = .panic (announce env.parseTime pm s) := by
  unfold placemarkStep
  cases hc : pm.Outer.Coords env.parseFloat with
  | none => simp
  | some res =>
    obtain ⟨shape, e⟩ := res
    have hr : ringOf env pm.Outer = shape := by simp [ringOf, hc]
    simp only [windingNumberTest_eq_wnFold, Tag_eq]
    by_cases hw : wnFold p shape 0 = 0
    · left
      have hcont : contained p shape = false := by simp [contained_eq, hw]
      simp [hw, emit, matchesPoint, holeHit, hr, hcont]
    · have hcont : contained p shape = true := by simp [contained_eq, hw]
      rcases holeLoop_cases env p pm.Inner with h | h | h
      · left
        simp [hw, h.1, emit, matchesPoint, holeHit, hr, hcont, any_false_iff_all_not, h.2,
          matchLineOf]
      · right; left
        simp [hw, h.1, matchesPoint, holeHit, hr, hcont, any_false_iff_all_not, h.2]
      · right; right
        simp [hw, h]



theorem emitPairs_nil (env : Env) (p : Coord) (s : RepState) : emitPairs env p [] s = s := rfl

theorem emitPairs_cons (env : Env) (p : Coord) (x : kmlFolder × kmlPlacemark)
    (l : List (kmlFolder × kmlPlacemark)) (s : RepState) :
    emitPairs env p (x :: l) s = emitPairs env p l (emit env p x.1 x.2 s) := rfl

theorem emitPairs_append (env : Env) (p : Coord) (l1 l2 : List (kmlFolder × kmlPlacemark))
    (s : RepState) :
    emitPairs env p (l1 ++ l2) s = emitPairs env p l2 (emitPairs env p l1 s) := by
  simp [emitPairs, List.foldl_append]

theorem emit_of_not_matches (env : Env) (p : Coord) (f : kmlFolder) (pm : kmlPlacemark)
    (s : RepState) (h : matchesPoint env p pm = false) :
    emit env p f pm s = announce env.parseTime pm s := by
  simp [emit, h]

/-- The placemark loop ends the folder normally or by `continue FolderLoop` in the state
reached by the visited placemarks, or it panics at a placemark after a prefix of the
folder was processed. -/
theorem placemarkLoop_cases (env : Env) (p : Coord) (f : kmlFolder) :
    ∀ (pms : List kmlPlacemark) (s : RepState),
      placemarkLoop env p f pms s
          = .next (emitPairs env p ((visited env p pms).map (fun pm => (f, pm))) s) ∨
      placemarkLoop env p f pms s
          = .continueFolder (emitPairs env p ((visited env p pms).map (fun pm => (f, pm))) s) ∨
      ∃ l pm, (l ++ [pm]) <+: pms ∧
        placemarkLoop env p f pms s
          = .panic (announce env.parseTime pm (emitPairs env p (l.map (fun pm => (f, pm))) s))
  | [], s => by simp [placemarkLoop, visited, emitPairs]
  | pm :: rest, s => by
    rcases placemarkStep_cases env p f pm s with h | h | h
    · have hv : visited env p (pm :: rest) = pm :: visited env p rest := by
        simp [visited, h.2]
      rw [hv]
      simp only [placemarkLoop, h.1, List.map_cons, emitPairs_cons]
      rcases placemarkLoop_cases env p f rest (emit env p f pm s) with h2 | h2 | h2
      · left; exact h2
      · right; left; exact h2
      · right; right
        obtain ⟨l, pm2, hpre, heq⟩ := h2
        refine ⟨pm :: l, pm2, ?_, ?_⟩
        · show (pm :: (l ++ [pm2])) <+: pm :: rest
          exact List.cons_prefix_cons.mpr ⟨rfl, hpre⟩
        · rw [heq]; simp [emitPairs_cons]
    · right; left
      have hv : visited env p (pm :: rest) = [pm] := by simp [visited, h.2.1]
      rw [hv]
      simp only [placemarkLoop, h.1, List.map_cons, List.map_nil, emitPairs_cons, emitPairs_nil,
        emit_of_not_matches env p f pm s h.2.2]
    · right; right
      refine ⟨[], pm, ?_, ?_⟩
      · simp
      · simp only [placemarkLoop, h, List.map_nil, emitPairs_nil]

theorem mem_catalogPairs (folders : List kmlFolder) (f : kmlFolder) (pm : kmlPlacemark) :
    (f, pm) ∈ catalogPairs folders ↔ f ∈ folders ∧ pm ∈ f.Placemarks := by
  simp only [catalogPairs, List.mem_flatMap, List.mem_map, Prod.mk.injEq]
  constructor
  · rintro ⟨g, hg, pm2, hpm, rfl, rfl⟩
    exact ⟨hg, hpm⟩
  · rintro ⟨hf, hpm⟩
    exact ⟨f, hf, pm, hpm, rfl, rfl⟩

theorem visited_initial (env : Env) (p : Coord) :
    ∀ pms : List kmlPlacemark, visited env p pms <+: pms
  | [] => by simp [visited]
  | pm :: rest => by
    unfold visited
    split_ifs
    · exact ⟨rest, by simp⟩
    · exact List.cons_prefix_cons.mpr ⟨rfl, visited_initial env p rest⟩

theorem visitedPairs_subset (env : Env) (p : Coord) (folders : List kmlFolder) :
    ∀ x ∈ visitedPairs env p folders, x ∈ catalogPairs folders := by
  intro x hx
  simp only [visitedPairs, List.mem_flatMap, List.mem_map] at hx
  obtain ⟨f, hf, pm, hpm, rfl⟩ := hx
  exact (mem_catalogPairs folders f pm).mpr
    ⟨hf, (visited_initial env p f.Placemarks).subset hpm⟩

theorem visitedPairs_cons (env : Env) (p : Coord) (f : kmlFolder) (rest : List kmlFolder) :
    visitedPairs env p (f :: rest)
      = (visited env p f.Placemarks).map (fun pm => (f, pm)) ++ visitedPairs env p rest := by
  simp [visitedPairs]

/-- The folder loop ends without panic in the state reached by the visited placemarks of
the catalog, or it panics at a placemark after some placemarks of the catalog were
processed. -/
theorem folderLoop_cases (env : Env) (p : Coord) :
    ∀ (folders : List kmlFolder) (s : RepState),
      folderLoop env p folders s = (emitPairs env p (visitedPairs env p folders) s, false) ∨
      ∃ l pm, (∀ x ∈ l, x ∈ catalogPairs folders) ∧
        folderLoop env p folders s = (announce env.parseTime pm (emitPairs env p l s), true)
  | [], s => by simp [folderLoop, visitedPairs, emitPairs]
  | f :: rest, s => by
    have key : placemarkLoop env p f f.Placemarks s
          = .next (emitPairs env p ((visited env p f.Placemarks).map (fun pm => (f, pm))) s) ∨
        placemarkLoop env p f f.Placemarks s
          = .continueFolder
              (emitPairs env p ((visited env p f.Placemarks).map (fun pm => (f, pm))) s) →
        folderLoop env p (f :: rest) s
          = folderLoop env p rest
              (emitPairs env p ((visited env p f.Placemarks).map (fun pm => (f, pm))) s) := by
      intro h
      rcases h with h | h <;> simp [folderLoop, h]
    rcases placemarkLoop_cases env p f f.Placemarks s with h | h | h
    · rw [key (Or.inl h), visitedPairs_cons, emitPairs_append]
      rcases folderLoop_cases env p rest
          (emitPairs env p ((visited env p f.Placemarks).map (fun pm => (f, pm))) s)
        with h2 | ⟨l, pm, hl, h2⟩
      · left; exact h2
      · right
        refine ⟨(visited env p f.Placemarks).map (fun pm => (f, pm)) ++ l, pm, ?_, ?_⟩
        · intro x hx
          rcases List.mem_append.mp hx with hx | hx
          · apply visitedPairs_subset env p (f :: rest)
            rw [visitedPairs_cons]; exact List.mem_append_left _ hx
          · have := hl x hx
            simp only [catalogPairs, List.flatMap_cons] at this ⊢
            exact List.mem_append_right _ this
        · rw [h2, emitPairs_append]
    · rw [key (Or.inr h), visitedPairs_cons, emitPairs_append]
      rcases folderLoop_cases env p rest
          (emitPairs env p ((visited env p f.Placemarks).map (fun pm => (f, pm))) s)
        with h2 | ⟨l, pm, hl, h2⟩
      · left; exact h2
      · right
        refine ⟨(visited env p f.Placemarks).map (fun pm => (f, pm)) ++ l, pm, ?_, ?_⟩
        · intro x hx
          rcases List.mem_append.mp hx with hx | hx
          · apply visitedPairs_subset env p (f :: rest)
            rw [visitedPairs_cons]; exact List.mem_append_left _ hx
          · have := hl x hx
            simp only [catalogPairs, List.flatMap_cons] at this ⊢
            exact List.mem_append_right _ this
        · rw [h2, emitPairs_append]
    · right
      obtain ⟨l, pm, hpre, heq⟩ := h
      refine ⟨l.map (fun pm => (f, pm)), pm, ?_, ?_⟩
      · intro x hx
        simp only [List.mem_map] at hx
        obtain ⟨pm2, hpm2, rfl⟩ := hx
        refine (mem_catalogPairs (f :: rest) f pm2).mpr ⟨by simp, ?_⟩
        exact hpre.subset (by simp [hpm2])
      · simp [folderLoop, heq]


/-! ## What the visited placemarks add to the report -/

theorem announce_interval (parseTime : String → Option Time) (pm : kmlPlacemark)
    (s : RepState) :
    (announce parseTime pm s).beginT = (pm.Begin parseTime).1 ∧
    (announce parseTime pm s).endT = (pm.End parseTime).1 := by
  unfold announce
  by_cases h : (pm.Begin parseTime).1 = s.beginT ∧ (pm.End parseTime).1 = s.endT
  · simp [h]
  · simp [h]

theorem announce_noSignWeather (parseTime : String → Option Time) (pm : kmlPlacemark)
    (s : RepState) : (announce parseTime pm s).noSignWeather = s.noSignWeather := by
  unfold announce
  by_cases h : (pm.Begin parseTime).1 = s.beginT ∧ (pm.End parseTime).1 = s.endT
  · simp [h]
  · simp [h]

theorem announce_out (env : Env) (pm : kmlPlacemark) (s : RepState) :
    (announce env.parseTime pm s).out
      = s.out ++ (if intervalOf env pm = (s.beginT, s.endT) then []
          else [.valid (intervalOf env pm).1 (intervalOf env pm).2]) := by
  unfold announce intervalOf
  by_cases h : (pm.Begin env.parseTime).1 = s.beginT ∧ (pm.End env.parseTime).1 = s.endT
  · simp [h]
  · have h2 : ¬ ((pm.Begin env.parseTime).1, (pm.End env.parseTime).1) = (s.beginT, s.endT) := by
      simpa [Prod.mk.injEq] using h
    simp only [h, not_false_eq_true, if_true, h2, if_false]

theorem emit_out (env : Env) (p : Coord) (f : kmlFolder) (pm : kmlPlacemark) (s : RepState) :
    (emit env p f pm s).out
      = s.out ++ (if intervalOf env pm = (s.beginT, s.endT) then []
          else [.valid (intervalOf env pm).1 (intervalOf env pm).2])
        ++ (if matchesPoint env p pm then [matchLineOf f pm] else []) := by
  unfold emit
  by_cases h : matchesPoint env p pm = true
  · simp only [h, if_true, announce_out]
  · rw [Bool.not_eq_true] at h
    simp [h, announce_out]

theorem emit_interval (env : Env) (p : Coord) (f : kmlFolder) (pm : kmlPlacemark)
    (s : RepState) :
    ((emit env p f pm s).beginT, (emit env p f pm s).endT) = intervalOf env pm := by
  have h := announce_interval env.parseTime pm s
  unfold emit intervalOf
  by_cases hm : matchesPoint env p pm = true
  · simp [hm, h.1, h.2]
  · simp [hm, h.1, h.2]

theorem emit_noSignWeather (env : Env) (p : Coord) (f : kmlFolder) (pm : kmlPlacemark)
    (s : RepState) :
    (emit env p f pm s).noSignWeather = (s.noSignWeather && !matchesPoint env p pm) := by
  unfold emit
  by_cases hm : matchesPoint env p pm = true
  · simp [hm]
  · simp [hm, announce_noSignWeather]

theorem matchLines_append (a b : List ReportLine) :
    matchLines (a ++ b) = matchLines a ++ matchLines b := by
  simp [matchLines]

theorem announcements_append (a b : List ReportLine) :
    announcements (a ++ b) = announcements a ++ announcements b := by
  simp [announcements]

theorem emitPairs_matchLines (env : Env) (p : Coord) :
    ∀ (l : List (kmlFolder × kmlPlacemark)) (s : RepState),
      matchLines (emitPairs env p l s).out
        = matchLines s.out
          ++ (l.filter (fun fp => matchesPoint env p fp.2)).map
              (fun fp => matchLineOf fp.1 fp.2)
  | [], s => by simp [emitPairs]
  | x :: l, s => by
    rw [emitPairs_cons, emitPairs_matchLines env p l, emit_out, matchLines_append,
      matchLines_append]
    by_cases hm : matchesPoint env p x.2 = true
    · by_cases hi : intervalOf env x.2 = (s.beginT, s.endT) <;>
        simp [hm, hi, matchLines, matchLineOf]
    · by_cases hi : intervalOf env x.2 = (s.beginT, s.endT) <;>
        simp [hm, hi, matchLines]

theorem emitPairs_announcements (env : Env) (p : Coord) :
    ∀ (l : List (kmlFolder × kmlPlacemark)) (s : RepState),
      announcements (emitPairs env p l s).out
        = announcements s.out
          ++ collapse (s.beginT, s.endT) (l.map (fun fp => intervalOf env fp.2))
  | [], s => by simp [emitPairs, collapse]
  | x :: l, s => by
    rw [emitPairs_cons, emitPairs_announcements env p l, emit_out, announcements_append,
      announcements_append, emit_interval]
    by_cases hm : matchesPoint env p x.2 = true
    · by_cases hi : intervalOf env x.2 = (s.beginT, s.endT) <;>
        simp [hm, hi, announcements, matchLineOf, collapse]
    · by_cases hi : intervalOf env x.2 = (s.beginT, s.endT) <;>
        simp [hm, hi, announcements, collapse]

theorem emitPairs_noSignWeather (env : Env) (p : Coord) :
    ∀ (l : List (kmlFolder × kmlPlacemark)) (s : RepState),
      (emitPairs env p l s).noSignWeather
        = (s.noSignWeather && (l.filter (fun fp => matchesPoint env p fp.2)).isEmpty)
  | [], s => by simp [emitPairs]
  | x :: l, s => by
    rw [emitPairs_cons, emitPairs_noSignWeather env p l, emit_noSignWeather]
    by_cases hm : matchesPoint env p x.2 = true
    · simp [hm, List.filter_cons]
    · simp [hm, List.filter_cons]

theorem emitPairs_noThreat (env : Env) (p : Coord) :
    ∀ (l : List (kmlFolder × kmlPlacemark)) (s : RepState),
      ReportLine.noThreat ∈ (emitPairs env p l s).out ↔ ReportLine.noThreat ∈ s.out
  | [], s => by simp [emitPairs]
  | x :: l, s => by
    rw [emitPairs_cons, emitPairs_noThreat env p l, emit_out]
    by_cases hm : matchesPoint env p x.2 = true
    · by_cases hi : intervalOf env x.2 = (s.beginT, s.endT) <;>
        simp [hm, hi, matchLineOf]
    · by_cases hi : intervalOf env x.2 = (s.beginT, s.endT) <;>
        simp [hm, hi]



/-! ## Concrete runs -/

theorem sampleSquare_coords :
    sampleSquare.Coords sampleParseFloat = some (rectRing 0 0 4 4, false) := by decide

theorem sampleHole_coords :
    sampleHole.Coords sampleParseFloat = some (rectRing 1 1 3 3, false) := by decide

theorem centre_in_square : windingNumberTest ⟨2, 2⟩ (rectRing 0 0 4 4) = some 1 := by
  rw [windingNumberTest_eq_wnFold, rect_wnFold 0 0 4 4 2 2 (by norm_num)]
  norm_num

theorem centre_in_hole : windingNumberTest ⟨2, 2⟩ (rectRing 1 1 3 3) = some 1 := by
  rw [windingNumberTest_eq_wnFold, rect_wnFold 1 1 3 3 2 2 (by norm_num)]
  norm_num

theorem sampleCatalog_report :
    report sampleEnv ⟨2, 2⟩ sampleCatalog
      = { out := [.valid 63504577800 63504648000, .noThreat], panicked := false } := by
  simp [report, sampleCatalog, sampleFolder, folderLoop, placemarkLoop, placemarkStep, holeLoop, announce,
    holedPlacemark, sampleEnv, sampleSquare_coords, sampleHole_coords,
    centre_in_square, centre_in_hole, kmlPlacemark.Begin, kmlPlacemark.End, sampleParseTime,
    zeroTime]

theorem plainPlacemark_matches : matchesPoint sampleEnv ⟨2, 2⟩ plainPlacemark = true := by
  simp [matchesPoint, plainPlacemark, ringOf, sampleEnv, sampleSquare_coords, contained,
    centre_in_square]

theorem holedPlacemark_holeHit : holeHit sampleEnv ⟨2, 2⟩ holedPlacemark = true := by
  simp [holeHit, holedPlacemark, ringOf, sampleEnv, sampleSquare_coords, sampleHole_coords,
    contained, centre_in_square, centre_in_hole]

theorem Coords_empty (parseFloat : String → Option ℚ) :
    kmlLinearRing.Coords parseFloat { CoordData := "" } = none := rfl

/-! ## The report without a panic -/

theorem report_eq (env : Env) (p : Coord) (folders : List kmlFolder) :
    report env p folders
      = match folderLoop env p folders initState with
        | (s, true) => { out := s.out, panicked := true }
        | (s, false) =>
          { out := if s.noSignWeather then s.out ++ [.noThreat] else s.out,
            panicked := false } := rfl

theorem report_out_of_no_panic (env : Env) (p : Coord) (folders : List kmlFolder)
    (h : (report env p folders).panicked = false) :
    (report env p folders).out
      = if (emitPairs env p (visitedPairs env p folders) initState).noSignWeather then
          (emitPairs env p (visitedPairs env p folders) initState).out ++ [.noThreat]
        else (emitPairs env p (visitedPairs env p folders) initState).out := by
  rw [report_eq] at h ⊢
  rcases folderLoop_cases env p folders initState with h2 | ⟨l, pm, _, h2⟩
  · rw [h2]
  · rw [h2] at h
    simp at h

theorem report_out_of_panic (env : Env) (p : Coord) (folders : List kmlFolder)
    (h : (report env p folders).panicked = true) :
    ∃ l pm, (∀ x ∈ l, x ∈ catalogPairs folders) ∧
      (report env p folders).out = (announce env.parseTime pm (emitPairs env p l initState)).out := by
  rw [report_eq] at h ⊢
  rcases folderLoop_cases env p folders initState with h2 | ⟨l, pm, hl, h2⟩
  · rw [h2] at h
    simp at h
  · exact ⟨l, pm, hl, by rw [h2]⟩

theorem matchLines_noThreat (out : List ReportLine) :
    matchLines (out ++ [.noThreat]) = matchLines out := by
  simp [matchLines]

theorem announcements_noThreat (out : List ReportLine) :
    announcements (out ++ [.noThreat]) = announcements out := by
  simp [announcements]

theorem report_matchLines_of_no_panic (env : Env) (p : Coord) (folders : List kmlFolder)
    (h : (report env p folders).panicked = false) :
    matchLines (report env p folders).out
      = ((visitedPairs env p folders).filter (fun fp => matchesPoint env p fp.2)).map
          (fun fp => matchLineOf fp.1 fp.2) := by
  rw [report_out_of_no_panic env p folders h]
  split_ifs
  · rw [matchLines_noThreat, emitPairs_matchLines]; simp [initState, matchLines]
  · rw [emitPairs_matchLines]; simp [initState, matchLines]

theorem matchLines_announce (env : Env) (pm : kmlPlacemark) (s : RepState) :
    matchLines (announce env.parseTime pm s).out = matchLines s.out := by
  rw [announce_out, matchLines_append]
  split_ifs <;> simp [matchLines]

/-- In every run, the match lines are match lines of placemarks of the catalog that match
the point. -/
theorem report_matchLines_sound (env : Env) (p : Coord) (folders : List kmlFolder)
    (line : ReportLine) (h : line ∈ matchLines (report env p folders).out) :
    ∃ fp ∈ catalogPairs folders, matchesPoint env p fp.2 = true ∧ line = matchLineOf fp.1 fp.2 := by
  have key : ∀ l : List (kmlFolder × kmlPlacemark), (∀ x ∈ l, x ∈ catalogPairs folders) →
      line ∈ matchLines (emitPairs env p l initState).out →
      ∃ fp ∈ catalogPairs folders, matchesPoint env p fp.2 = true ∧
        line = matchLineOf fp.1 fp.2 := by
    intro l hl hmem
    rw [emitPairs_matchLines] at hmem
    simp only [initState, matchLines, List.filter_nil, List.nil_append, List.mem_map,
      List.mem_filter] at hmem
    obtain ⟨fp, ⟨hfp, hm⟩, rfl⟩ := hmem
    exact ⟨fp, hl fp hfp, hm, rfl⟩
  cases hp : (report env p folders).panicked with
  | false =>
    rw [report_out_of_no_panic env p folders hp] at h
    refine key (visitedPairs env p folders) (visitedPairs_subset env p folders) ?_
    split_ifs at h
    · rwa [matchLines_noThreat] at h
    · exact h
  | true =>
    obtain ⟨l, pm, hl, hout⟩ := report_out_of_panic env p folders hp
    rw [hout, matchLines_announce] at h
    exact key l hl h



theorem plainCatalog_report :
    report sampleEnv ⟨2, 2⟩ plainCatalog
      = { out := [.valid 63504648000 63504734400,
                  .matchLine "Risk of tornado within 25 miles: 2 %"],
          panicked := false } := by
  simp [report, plainCatalog, folderLoop, placemarkLoop, placemarkStep, holeLoop, announce,
    plainPlacemark, sampleEnv, sampleSquare_coords, centre_in_square, kmlPlacemark.Begin,
    kmlPlacemark.End, sampleParseTime, zeroTime, Tag_eq]
  decide

/-! ## C2: matching placemarks and their match lines -/

/-- C2, as stated, fails: in the sample catalog the plain placemark matches the point
`(2,2)`, yet the report has no match line, because the placemark before it in the folder
has a hole hit. -/
theorem matching_placemark_without_line :
    plainPlacemark ∈ sampleFolder.Placemarks ∧
    sampleFolder ∈ sampleCatalog ∧
    matchesPoint sampleEnv ⟨2, 2⟩ plainPlacemark = true ∧
    (report sampleEnv ⟨2, 2⟩ sampleCatalog).panicked = false ∧
    matchLineOf sampleFolder plainPlacemark ∉ (report sampleEnv ⟨2, 2⟩ sampleCatalog).out := by
  refine ⟨by simp [sampleFolder], by simp [sampleCatalog], plainPlacemark_matches, ?_, ?_⟩
  · rw [sampleCatalog_report]
  · rw [sampleCatalog_report]
    simp [matchLineOf]

/-- C2, amended: in a run that does not panic, the match lines of the report are, in
catalog order, the lines `"<folder tag>: <placemark name>"` of the placemarks that match
the point and are not skipped after a hole hit earlier in their folder. -/
theorem report_matchLines_visited (env : Env) (p : Coord) (folders : List kmlFolder)
    (h : (report env p folders).panicked = false) :
    matchLines (report env p folders).out
      = ((visitedPairs env p folders).filter (fun fp => matchesPoint env p fp.2)).map
          (fun fp => matchLineOf fp.1 fp.2) :=
  report_matchLines_of_no_panic env p folders h

theorem report_matchLines_visited_witness :
    (report sampleEnv ⟨2, 2⟩ plainCatalog).panicked = false ∧
    matchLines (report sampleEnv ⟨2, 2⟩ plainCatalog).out
      = ((visitedPairs sampleEnv ⟨2, 2⟩ plainCatalog).filter
          (fun fp => matchesPoint sampleEnv ⟨2, 2⟩ fp.2)).map
          (fun fp => matchLineOf fp.1 fp.2) :=
  ⟨by rw [plainCatalog_report],
   report_matchLines_visited sampleEnv ⟨2, 2⟩ plainCatalog (by rw [plainCatalog_report])⟩

/-! ## C3: a match line only for a matching placemark -/

theorem mem_matchLines (out : List ReportLine) (text : String) :
    ReportLine.matchLine text ∈ matchLines out ↔ ReportLine.matchLine text ∈ out := by
  simp [matchLines]

theorem matchesPoint_iff (env : Env) (p : Coord) (pm : kmlPlacemark) :
    matchesPoint env p pm = true ↔
      contained p (ringOf env pm.Outer) = true ∧
      ∀ r ∈ pm.Inner, contained p (ringOf env r) = false := by
  simp [matchesPoint]

/-- C3: a match line of the report is the line of a placemark of the catalog for which
the point is inside the outer ring and inside none of the inner rings; a placemark that is
alone in its catalog and has a hole containing the point gets no match line; in the
scenario of the square with a hole and the point `(2,2)` there is no match line. -/
theorem matchLine_only_if_matches :
    (∀ (env : Env) (p : Coord) (folders : List kmlFolder) (text : String),
      ReportLine.matchLine text ∈ (report env p folders).out →
      ∃ f ∈ folders, ∃ pm ∈ f.Placemarks,
        ReportLine.matchLine text = matchLineOf f pm ∧
        contained p (ringOf env pm.Outer) = true ∧
        ∀ r ∈ pm.Inner, contained p (ringOf env r) = false) ∧
    (∀ (env : Env) (p : Coord) (name : String) (pm : kmlPlacemark),
      (∃ r ∈ pm.Inner, contained p (ringOf env r) = true) →
      ∀ text : String,
        ReportLine.matchLine text ∉
          (report env p [{ Name := name, Placemarks := [pm] }]).out) ∧
    contained ⟨2, 2⟩ (ringOf sampleEnv holedPlacemark.Outer) = true ∧
    (∀ text : String,
      ReportLine.matchLine text ∉ (report sampleEnv ⟨2, 2⟩ holedCatalog).out) := by
  have first : ∀ (env : Env) (p : Coord) (folders : List kmlFolder) (text : String),
      ReportLine.matchLine text ∈ (report env p folders).out →
      ∃ f ∈ folders, ∃ pm ∈ f.Placemarks,
        ReportLine.matchLine text = matchLineOf f pm ∧
        contained p (ringOf env pm.Outer) = true ∧
        ∀ r ∈ pm.Inner, contained p (ringOf env r) = false := by
    intro env p folders text h
    obtain ⟨fp, hfp, hm, hline⟩ :=
      report_matchLines_sound env p folders _ ((mem_matchLines _ text).mpr h)
    obtain ⟨hf, hpm⟩ := (mem_catalogPairs folders fp.1 fp.2).mp hfp
    exact ⟨fp.1, hf, fp.2, hpm, hline, (matchesPoint_iff env p fp.2).mp hm⟩
  have second : ∀ (env : Env) (p : Coord) (name : String) (pm : kmlPlacemark),
      (∃ r ∈ pm.Inner, contained p (ringOf env r) = true) →
      ∀ text : String,
        ReportLine.matchLine text ∉
          (report env p [{ Name := name, Placemarks := [pm] }]).out := by
    intro env p name pm ⟨r, hr, hc⟩ text h
    obtain ⟨f, hf, pm2, hpm2, _, _, hall⟩ := first env p _ text h
    simp only [List.mem_singleton] at hf
    subst hf
    simp only [List.mem_singleton] at hpm2
    subst hpm2
    rw [hall r hr] at hc
    cases hc
  refine ⟨first, second, ?_, ?_⟩
  · simp [holedPlacemark, ringOf, sampleEnv, sampleSquare_coords, contained, centre_in_square]
  · refine second sampleEnv ⟨2, 2⟩ _ holedPlacemark ⟨sampleHole, by simp [holedPlacemark], ?_⟩
    simp [ringOf, sampleEnv, sampleHole_coords, contained, centre_in_hole]

theorem matchLine_only_if_matches_witness :
    ReportLine.matchLine "Risk of tornado within 25 miles: 2 %"
        ∈ (report sampleEnv ⟨2, 2⟩ plainCatalog).out ∧
    ∃ f ∈ plainCatalog, ∃ pm ∈ f.Placemarks,
      ReportLine.matchLine "Risk of tornado within 25 miles: 2 %" = matchLineOf f pm ∧
      contained ⟨2, 2⟩ (ringOf sampleEnv pm.Outer) = true ∧
      ∀ r ∈ pm.Inner, contained ⟨2, 2⟩ (ringOf sampleEnv r) = false :=
  ⟨by rw [plainCatalog_report]; simp,
   matchLine_only_if_matches.1 sampleEnv ⟨2, 2⟩ plainCatalog _
    (by rw [plainCatalog_report]; simp)⟩



/-! ## C4: the interval announcements -/

/-- C4, as stated, fails: in the sample catalog the two regions have different intervals,
yet only the first is announced, because the second region is skipped after the hole hit
of the first. -/
theorem announcements_not_all_runs :
    (report sampleEnv ⟨2, 2⟩ sampleCatalog).panicked = false ∧
    announcements (report sampleEnv ⟨2, 2⟩ sampleCatalog).out
      = [(63504577800, 63504648000)] ∧
    collapseRuns ((catalogPairs sampleCatalog).map (fun fp => intervalOf sampleEnv fp.2))
      = [(63504577800, 63504648000), (63504648000, 63504734400)] ∧
    announcements (report sampleEnv ⟨2, 2⟩ sampleCatalog).out
      ≠ collapseRuns ((catalogPairs sampleCatalog).map (fun fp => intervalOf sampleEnv fp.2)) := by
  have h1 : announcements (report sampleEnv ⟨2, 2⟩ sampleCatalog).out
      = [(63504577800, 63504648000)] := by
    rw [sampleCatalog_report]; rfl
  have h2 : collapseRuns
      ((catalogPairs sampleCatalog).map (fun fp => intervalOf sampleEnv fp.2))
      = [(63504577800, 63504648000), (63504648000, 63504734400)] := by
    decide
  refine ⟨by rw [sampleCatalog_report], h1, h2, ?_⟩
  rw [h1, h2]
  decide

/-- C4, amended: in a run that does not panic, the announced intervals are those of the
regions not skipped after a hole hit earlier in their folder, in catalog order, a region
being announced exactly when its interval differs from that of the preceding such region
(from the pair of zero times for the first one); so intervals `A, A, B` give the
announcements `A, B` and intervals `A, B, A` give three. -/
theorem report_announcements_visited :
    (∀ (env : Env) (p : Coord) (folders : List kmlFolder),
      (report env p folders).panicked = false →
      announcements (report env p folders).out
        = collapse (zeroTime, zeroTime)
            ((visitedPairs env p folders).map (fun fp => intervalOf env fp.2))) ∧
    (∀ last A B : Time × Time, A ≠ last → A ≠ B →
      collapse last [A, A, B] = [A, B] ∧ collapse last [A, B, A] = [A, B, A]) := by
  constructor
  · intro env p folders h
    rw [report_out_of_no_panic env p folders h]
    split_ifs
    · rw [announcements_noThreat, emitPairs_announcements]; simp [initState, announcements]
    · rw [emitPairs_announcements]; simp [initState, announcements]
  · intro last A B h1 h2
    simp [collapse, h1, h2, Ne.symm h2]

theorem report_announcements_visited_witness :
    (report sampleEnv ⟨2, 2⟩ sampleCatalog).panicked = false ∧
    announcements (report sampleEnv ⟨2, 2⟩ sampleCatalog).out
      = collapse (zeroTime, zeroTime)
          ((visitedPairs sampleEnv ⟨2, 2⟩ sampleCatalog).map
            (fun fp => intervalOf sampleEnv fp.2)) ∧
    collapse (zeroTime, zeroTime) [((1 : Time), (2 : Time)), (1, 2), (2, 3)]
      = [(1, 2), (2, 3)] :=
  ⟨by rw [sampleCatalog_report],
   report_announcements_visited.1 sampleEnv ⟨2, 2⟩ sampleCatalog
     (by rw [sampleCatalog_report]),
   (report_announcements_visited.2 (zeroTime, zeroTime) (1, 2) (2, 3)
     (by decide) (by decide)).1⟩

/-! ## C5: the line "No significant threat" -/

/-- In a run that does not panic, the report has the line "No significant threat" iff it
has no match line, and then that line occurs once, as the last line. -/
theorem report_noThreat_of_no_panic (env : Env) (p : Coord) (folders : List kmlFolder)
    (h : (report env p folders).panicked = false) :
    (ReportLine.noThreat ∈ (report env p folders).out ↔
        matchLines (report env p folders).out = []) ∧
    (ReportLine.noThreat ∈ (report env p folders).out →
        (report env p folders).out.count ReportLine.noThreat = 1 ∧
        (report env p folders).out.getLast? = some ReportLine.noThreat) := by
  have hm := report_matchLines_of_no_panic env p folders h
  rw [report_out_of_no_panic env p folders h] at hm ⊢
  have hnot : ReportLine.noThreat ∉ (emitPairs env p (visitedPairs env p folders) initState).out := by
    rw [emitPairs_noThreat]; simp [initState]
  have hnsw := emitPairs_noSignWeather env p (visitedPairs env p folders) initState
  by_cases hs : (emitPairs env p (visitedPairs env p folders) initState).noSignWeather = true
  · simp only [hs, if_true] at hm ⊢
    rw [hs] at hnsw
    have hempty : (visitedPairs env p folders).filter (fun fp => matchesPoint env p fp.2) = [] := by
      have : ((visitedPairs env p folders).filter (fun fp => matchesPoint env p fp.2)).isEmpty
          = true := by
        simpa [initState] using hnsw.symm
      exact List.isEmpty_iff.mp this
    refine ⟨?_, ?_⟩
    · rw [hm, hempty]; simp
    · intro _
      refine ⟨?_, by simp⟩
      rw [List.count_append, List.count_eq_zero_of_not_mem hnot]
      simp
  · simp only [hs] at hm ⊢
    simp only [Bool.false_eq_true, if_false]
    rw [Bool.not_eq_true] at hs
    rw [hs] at hnsw
    have hne : (visitedPairs env p folders).filter (fun fp => matchesPoint env p fp.2) ≠ [] := by
      intro he
      rw [he] at hnsw
      simp [initState] at hnsw
    refine ⟨?_, fun hmem => absurd hmem hnot⟩
    constructor
    · intro hmem; exact absurd hmem hnot
    · intro he
      simp only [Bool.false_eq_true, if_false] at hm
      rw [he] at hm
      exact absurd (List.map_eq_nil_iff.mp hm.symm) hne

/-- C5 on the catalog whose only placemark has an empty coordinate string: the run panics
inside `Coords`, and the output has neither a match line nor the line "No significant
threat". -/
theorem report_emptyRing_no_final_line :
    ∀ (env : Env) (p : Coord),
      (report env p emptyRingCatalog).panicked = true ∧
      matchLines (report env p emptyRingCatalog).out = [] ∧
      ReportLine.noThreat ∉ (report env p emptyRingCatalog).out := by
  intro env p
  have h : report env p emptyRingCatalog
      = { out := (announce env.parseTime emptyRingPlacemark initState).out,
          panicked := true } := by
    simp [report, emptyRingCatalog, folderLoop, placemarkLoop, placemarkStep,
      emptyRingPlacemark, Coords_empty, initState]
  rw [h]
  refine ⟨rfl, ?_, ?_⟩
  · show matchLines (announce env.parseTime emptyRingPlacemark initState).out = []
    rw [matchLines_announce]; rfl
  · show ReportLine.noThreat ∉ (announce env.parseTime emptyRingPlacemark initState).out
    rw [announce_out]
    split_ifs <;> simp [initState]

/-! ## C10: ring construction -/

/-- C10 on the empty coordinate string and on a string with two adjacent spaces: the
token without a comma makes the index expression `spot[1]` panic, whatever the number
parser is (provided the tokens before it parse). -/
theorem Coords_panics_without_comma :
    (∀ parseFloat : String → Option ℚ,
      kmlLinearRing.Coords parseFloat { CoordData := "" } = none) ∧
    kmlLinearRing.Coords sampleParseFloat { CoordData := "1,2  3,4" } = none ∧
    kmlLinearRing.Coords sampleParseFloat { CoordData := "1,2 3,4" }
      = some ([⟨2, 1⟩, ⟨4, 3⟩], false) ∧
    kmlLinearRing.Coords sampleParseFloat { CoordData := "1,2 x,4" }
      = some ([⟨2, 1⟩], true) := by
  refine ⟨fun _ => rfl, by decide, by decide, by decide⟩



/-! ## Points outside the convex hull, with exact coordinates -/

theorem cross_up_sign (α β x y a1 a2 b1 b2 : ℝ)
    (ha : 0 < α * (a1 - x) + β * (a2 - y)) (hb : 0 < α * (b1 - x) + β * (b2 - y))
    (h1 : a1 ≤ x) (h2 : x < b1) :
    0 < β * ((b2 - a2) * (x - a1) - (y - a2) * (b1 - a1)) := by
  have e : β * ((b2 - a2) * (x - a1) - (y - a2) * (b1 - a1))
      = (α * (a1 - x) + β * (a2 - y)) * (b1 - x)
        + (α * (b1 - x) + β * (b2 - y)) * (x - a1) := by ring
  rw [e]
  exact add_pos_of_pos_of_nonneg (mul_pos ha (sub_pos.mpr h2))
    (mul_nonneg hb.le (sub_nonneg.mpr h1))

theorem cross_down_sign (α β x y a1 a2 b1 b2 : ℝ)
    (ha : 0 < α * (a1 - x) + β * (a2 - y)) (hb : 0 < α * (b1 - x) + β * (b2 - y))
    (h1 : x < a1) (h2 : b1 ≤ x) :
    β * ((b2 - a2) * (x - a1) - (y - a2) * (b1 - a1)) < 0 := by
  have e : β * ((b2 - a2) * (x - a1) - (y - a2) * (b1 - a1))
      = -((α * (a1 - x) + β * (a2 - y)) * (x - b1)
        + (α * (b1 - x) + β * (b2 - y)) * (a1 - x)) := by ring
  rw [e, neg_lt_zero]
  exact add_pos_of_nonneg_of_pos (mul_nonneg ha.le (sub_nonneg.mpr h2))
    (mul_pos hb (sub_pos.mpr h1))

theorem isLeft_cast (a b p : Coord) :
    ((isLeft a b p : ℚ) : ℝ)
      = ((b.Lng : ℝ) - a.Lng) * ((p.Lat : ℝ) - a.Lat)
        - ((p.Lng : ℝ) - a.Lng) * ((b.Lat : ℝ) - a.Lat) := by
  simp only [isLeft]; push_cast; ring

theorem windingStep_halfPlane_pos (α β : ℝ) (hβ : 0 < β) (p a b : Coord)
    (ha : inHalfPlane α β p a) (hb : inHalfPlane α β p b) (wn : Int) :
    windingStep p a b wn = wn + above p b - above p a := by
  unfold windingStep above
  by_cases h1 : a.Lat ≤ p.Lat
  · have h1n : ¬ a.Lat > p.Lat := not_lt.mpr h1
    by_cases h2 : b.Lat > p.Lat
    · have hs := cross_up_sign α β p.Lat p.Lng a.Lat a.Lng b.Lat b.Lng ha hb
        (by exact_mod_cast h1) (by exact_mod_cast h2)
      rw [← isLeft_cast] at hs
      have hpos : (0 : ℝ) < (isLeft a b p : ℚ) := pos_of_mul_pos_right hs hβ.le
      have hq : isLeft a b p > 0 := by exact_mod_cast hpos
      simp [h1, h1n, h2, hq]
    · simp [h1, h1n, h2]
  · have h1p : a.Lat > p.Lat := not_le.mp h1
    by_cases h2 : b.Lat ≤ p.Lat
    · have h2n : ¬ b.Lat > p.Lat := not_lt.mpr h2
      have hs := cross_down_sign α β p.Lat p.Lng a.Lat a.Lng b.Lat b.Lng ha hb
        (by exact_mod_cast h1p) (by exact_mod_cast h2)
      rw [← isLeft_cast] at hs
      have hneg : ((isLeft a b p : ℚ) : ℝ) < 0 := by
        by_contra hc
        have := mul_nonneg hβ.le (not_lt.mp hc)
        linarith
      have hq : isLeft a b p < 0 := by exact_mod_cast hneg
      simp [h1, h1p, h2, h2n, hq]
    · have h2p : b.Lat > p.Lat := not_le.mp h2
      simp [h1, h1p, h2, h2p]

theorem windingStep_halfPlane_nonpos (α β : ℝ) (hβ : β ≤ 0) (p a b : Coord)
    (ha : inHalfPlane α β p a) (hb : inHalfPlane α β p b) (wn : Int) :
    windingStep p a b wn = wn := by
  unfold windingStep
  by_cases h1 : a.Lat ≤ p.Lat
  · by_cases h2 : b.Lat > p.Lat
    · have hs := cross_up_sign α β p.Lat p.Lng a.Lat a.Lng b.Lat b.Lng ha hb
        (by exact_mod_cast h1) (by exact_mod_cast h2)
      rw [← isLeft_cast] at hs
      have hq : ¬ isLeft a b p > 0 := by
        intro hq
        have hpos : (0 : ℝ) < (isLeft a b p : ℚ) := by exact_mod_cast hq
        have := mul_nonpos_of_nonpos_of_nonneg hβ hpos.le
        linarith
      simp [h1, h2, hq]
    · simp [h1, h2]
  · by_cases h2 : b.Lat ≤ p.Lat
    · have hs := cross_down_sign α β p.Lat p.Lng a.Lat a.Lng b.Lat b.Lng ha hb
        (by exact_mod_cast (not_le.mp h1)) (by exact_mod_cast h2)
      rw [← isLeft_cast] at hs
      have hq : ¬ isLeft a b p < 0 := by
        intro hq
        have hneg : ((isLeft a b p : ℚ) : ℝ) < 0 := by exact_mod_cast hq
        have := mul_nonneg_of_nonpos_of_nonpos hβ hneg.le
        linarith
      simp [h1, h2, hq]
    · simp [h1, h2]

theorem wnFold_halfPlane_nonpos (α β : ℝ) (hβ : β ≤ 0) (p : Coord) :
    ∀ (v : List Coord) (wn : Int), (∀ c ∈ v, inHalfPlane α β p c) → wnFold p v wn = wn
  | [], wn, _ => by simp [wnFold]
  | [_], wn, _ => by simp [wnFold]
  | a :: b :: rest, wn, h => by
    rw [wnFold, windingStep_halfPlane_nonpos α β hβ p a b (h a (by simp)) (h b (by simp))]
    exact wnFold_halfPlane_nonpos α β hβ p (b :: rest) wn
      (fun c hc => h c (List.mem_cons_of_mem _ hc))

theorem wnFold_halfPlane_pos (α β : ℝ) (hβ : 0 < β) (p : Coord) :
    ∀ (a : Coord) (rest : List Coord) (wn : Int),
      (∀ c ∈ a :: rest, inHalfPlane α β p c) →
      wnFold p (a :: rest) wn
        = wn + above p ((a :: rest).getLast (List.cons_ne_nil a rest)) - above p a
  | a, [], wn, _ => by simp [wnFold]
  | a, b :: rest, wn, h => by
    rw [wnFold, windingStep_halfPlane_pos α β hβ p a b (h a (by simp)) (h b (by simp)),
      wnFold_halfPlane_pos α β hβ p b rest _ (fun c hc => h c (List.mem_cons_of_mem _ hc))]
    simp only [List.getLast_cons_cons]
    ring

theorem wnFold_closed_halfPlane (α β : ℝ) (p : Coord) (v : List Coord)
    (hclosed : closedRing v = true) (h : ∀ c ∈ v, inHalfPlane α β p c) :
    wnFold p v 0 = 0 := by
  rcases le_or_lt β 0 with hβ | hβ
  · exact wnFold_halfPlane_nonpos α β hβ p v 0 h
  · match v, hclosed, h with
    | [], _, _ => simp [wnFold]
    | a :: rest, hclosed, h =>
      rw [wnFold_halfPlane_pos α β hβ p a rest 0 h]
      have hl : (a :: rest).getLast (List.cons_ne_nil a rest) = a := by
        have := of_decide_eq_true hclosed
        rw [List.head?_cons, List.getLast?_eq_getLast _ (List.cons_ne_nil a rest)] at this
        exact (Option.some.inj this).symm
      rw [hl]; ring


theorem outsideHull_halfPlane (p : Coord) (v : List Coord) (h : outsideHull p v) :
    ∃ α β : ℝ, ∀ c ∈ v, inHalfPlane α β p c := by
  have hfin : (Set.image (fun c : Coord => ((c.Lat : ℝ), (c.Lng : ℝ))) {c | c ∈ v}).Finite :=
    (List.finite_toSet v).image _
  obtain ⟨f, u, hfp, hfv⟩ :=
    geometric_hahn_banach_point_closed (convex_convexHull ℝ _) hfin.isClosed_convexHull h
  refine ⟨f (1, 0), f (0, 1), ?_⟩
  intro c hc
  have hmem : ((c.Lat : ℝ), (c.Lng : ℝ)) ∈
      convexHull ℝ (Set.image (fun c : Coord => ((c.Lat : ℝ), (c.Lng : ℝ))) {c | c ∈ v}) :=
    subset_convexHull ℝ _ ⟨c, hc, rfl⟩
  have h1 := hfv _ hmem
  have hdec : ∀ x y : ℝ, f (x, y) = f (1, 0) * x + f (0, 1) * y := by
    intro x y
    have e : ((x, y) : ℝ × ℝ) = x • ((1 : ℝ), (0 : ℝ)) + y • ((0 : ℝ), (1 : ℝ)) := by
      ext <;> simp
    rw [e, map_add, map_smul, map_smul]
    simp only [smul_eq_mul]
    ring
  rw [hdec] at h1 hfp
  unfold inHalfPlane
  linarith

/-- With exact coordinates: for every closed ring (first vertex equal to last vertex),
simple or not, and every point outside the convex hull of its vertices, `windingNumberTest`
returns 0, so the point is not contained. -/
theorem windingNumberTest_outsideHull (p : Coord) (v : List Coord)
    (hclosed : closedRing v = true) (hout : outsideHull p v) :
    windingNumberTest p v = some 0 ∧ contained p v = false := by
  obtain ⟨α, β, h⟩ := outsideHull_halfPlane p v hout
  have hw := wnFold_closed_halfPlane α β p v hclosed h
  refine ⟨by rw [windingNumberTest_eq_wnFold, hw], by simp [contained_eq, hw]⟩

theorem far_outsideHull : outsideHull ⟨5, 5⟩ (rectRing 0 0 4 4) := by
  unfold outsideHull
  intro hmem
  have hsub : convexHull ℝ
      (Set.image (fun c : Coord => ((c.Lat : ℝ), (c.Lng : ℝ))) {c | c ∈ rectRing 0 0 4 4})
      ⊆ {w : ℝ × ℝ | w.1 ≤ 4} := by
    refine convexHull_min ?_ (convex_halfSpace_le (IsLinearMap.mk (fun _ _ => rfl) (fun _ _ => rfl)) 4)
    rintro _ ⟨c, hc, rfl⟩
    simp only [rectRing, Set.mem_setOf_eq, List.mem_cons, List.mem_singleton,
      List.not_mem_nil, or_false] at hc
    rcases hc with rfl | rfl | rfl | rfl | rfl <;> simp
  have := hsub hmem
  simp at this
  norm_num at this

theorem windingNumberTest_outsideHull_witness :
    closedRing (rectRing 0 0 4 4) = true ∧ outsideHull ⟨5, 5⟩ (rectRing 0 0 4 4) ∧
    windingNumberTest ⟨5, 5⟩ (rectRing 0 0 4 4) = some 0 ∧
    contained ⟨5, 5⟩ (rectRing 0 0 4 4) = false :=
  ⟨by decide, far_outsideHull,
   windingNumberTest_outsideHull ⟨5, 5⟩ (rectRing 0 0 4 4) (by decide) far_outsideHull⟩



/-! ## C19: points outside the bounding box -/

/-- C19: for a non-empty closed vertex sequence and a point strictly below, strictly
above, strictly to the low-longitude side or strictly to the high-longitude side of all
its vertices, `windingNumberTest` returns 0; on the three sides other than the
low-longitude one this holds for every vertex sequence, closed or not, and on the
low-longitude side an open sequence can give a non-zero value. -/
theorem windingNumberTest_outside_box :
    (∀ (p : Coord) (v : List Coord), v ≠ [] → closedRing v = true →
      ((∀ c ∈ v, p.Lat < c.Lat) ∨ (∀ c ∈ v, c.Lat < p.Lat) ∨
        (∀ c ∈ v, p.Lng < c.Lng) ∨ (∀ c ∈ v, c.Lng < p.Lng)) →
      windingNumberTest p v = some 0) ∧
    (∀ (p : Coord) (v : List Coord),
      ((∀ c ∈ v, p.Lat < c.Lat) ∨ (∀ c ∈ v, c.Lat < p.Lat) ∨ (∀ c ∈ v, c.Lng < p.Lng)) →
      windingNumberTest p v = some 0) ∧
    ((∀ c ∈ [(⟨0, 0⟩ : Coord), ⟨4, 0⟩], (⟨2, -1⟩ : Coord).Lng < c.Lng) ∧
      windingNumberTest ⟨2, -1⟩ [⟨0, 0⟩, ⟨4, 0⟩] = some 1) := by
  have below : ∀ (p : Coord) (v : List Coord), (∀ c ∈ v, p.Lat < c.Lat) →
      ∀ c ∈ v, inHalfPlane 1 0 p c := by
    intro p v h c hc
    have := h c hc
    unfold inHalfPlane
    have h2 : (p.Lat : ℝ) < (c.Lat : ℝ) := by exact_mod_cast this
    linarith
  have aboveAll : ∀ (p : Coord) (v : List Coord), (∀ c ∈ v, c.Lat < p.Lat) →
      ∀ c ∈ v, inHalfPlane (-1) 0 p c := by
    intro p v h c hc
    have := h c hc
    unfold inHalfPlane
    have h2 : (c.Lat : ℝ) < (p.Lat : ℝ) := by exact_mod_cast this
    linarith
  have west : ∀ (p : Coord) (v : List Coord), (∀ c ∈ v, p.Lng < c.Lng) →
      ∀ c ∈ v, inHalfPlane 0 1 p c := by
    intro p v h c hc
    have := h c hc
    unfold inHalfPlane
    have h2 : (p.Lng : ℝ) < (c.Lng : ℝ) := by exact_mod_cast this
    linarith
  have east : ∀ (p : Coord) (v : List Coord), (∀ c ∈ v, c.Lng < p.Lng) →
      ∀ c ∈ v, inHalfPlane 0 (-1) p c := by
    intro p v h c hc
    have := h c hc
    unfold inHalfPlane
    have h2 : (c.Lng : ℝ) < (p.Lng : ℝ) := by exact_mod_cast this
    linarith
  refine ⟨?_, ?_, ?_, ?_⟩
  · intro p v _ hclosed h
    rw [windingNumberTest_eq_wnFold]
    rcases h with h | h | h | h
    · rw [wnFold_closed_halfPlane 1 0 p v hclosed (below p v h)]
    · rw [wnFold_closed_halfPlane (-1) 0 p v hclosed (aboveAll p v h)]
    · rw [wnFold_closed_halfPlane 0 1 p v hclosed (west p v h)]
    · rw [wnFold_closed_halfPlane 0 (-1) p v hclosed (east p v h)]
  · intro p v h
    rw [windingNumberTest_eq_wnFold]
    rcases h with h | h | h
    · rw [wnFold_halfPlane_nonpos 1 0 le_rfl p v 0 (below p v h)]
    · rw [wnFold_halfPlane_nonpos (-1) 0 le_rfl p v 0 (aboveAll p v h)]
    · rw [wnFold_halfPlane_nonpos 0 (-1) (by norm_num) p v 0 (east p v h)]
  · intro c hc
    simp only [List.mem_cons, List.mem_singleton, List.not_mem_nil, or_false] at hc
    rcases hc with rfl | rfl <;> norm_num
  · norm_num [windingNumberTest, windingLoop, windingStep, isLeft]

theorem windingNumberTest_outside_box_witness :
    rectRing 0 0 4 4 ≠ [] ∧ closedRing (rectRing 0 0 4 4) = true ∧
    (∀ c ∈ rectRing 0 0 4 4, (⟨2, -1⟩ : Coord).Lng < c.Lng) ∧
    windingNumberTest ⟨2, -1⟩ (rectRing 0 0 4 4) = some 0 :=
  have h : ∀ c ∈ rectRing 0 0 4 4, (⟨2, -1⟩ : Coord).Lng < c.Lng := by
    intro c hc
    simp only [rectRing, List.mem_cons, List.mem_singleton, List.not_mem_nil, or_false] at hc
    rcases hc with rfl | rfl | rfl | rfl | rfl <;> norm_num
  ⟨by simp [rectRing], by decide, h,
   windingNumberTest_outside_box.1 ⟨2, -1⟩ (rectRing 0 0 4 4) (by simp [rectRing]) (by decide)
     (Or.inr (Or.inr (Or.inl h)))⟩

/-! ## C15: the winding loop never fails -/

/-- C15: for every point and every vertex sequence, the empty one included,
`windingNumberTest` returns a value: the loop ends within `len(v)` iterations from any
start index, and every index `i` that passes the loop condition `i < len(v)-1` has both
`v[i]` and `v[i+1]` in range. -/
theorem windingNumberTest_total :
    (∀ (p : Coord) (v : List Coord), ∃ wn, windingNumberTest p v = some wn) ∧
    (∀ p : Coord, windingNumberTest p [] = some 0) ∧
    (∀ (p : Coord) (v : List Coord) (fuel i : Nat) (wn : Int), v.length ≤ fuel + i →
      ∃ r, windingLoop p v fuel i wn = some r) ∧
    (∀ (v : List Coord) (i : Nat), (i : Int) < (v.length : Int) - 1 →
      ∃ a b, v[i]? = some a ∧ v[i + 1]? = some b) := by
  refine ⟨fun p v => ⟨_, windingNumberTest_eq_wnFold p v⟩, fun p => rfl, ?_, ?_⟩
  · intro p v fuel i wn h
    exact ⟨_, windingLoop_eq_wnFold p v fuel i wn h⟩
  · intro v i h
    have h1 : i < v.length := by omega
    have h2 : i + 1 < v.length := by omega
    exact ⟨v[i], v[i + 1], List.getElem?_eq_getElem h1, List.getElem?_eq_getElem h2⟩

theorem windingNumberTest_total_witness :
    ((0 : Nat) : Int) < ((rectRing 0 0 4 4).length : Int) - 1 ∧
    ∃ a b, (rectRing 0 0 4 4)[0]? = some a ∧ (rectRing 0 0 4 4)[0 + 1]? = some b :=
  ⟨by decide, windingNumberTest_total.2.2.2 (rectRing 0 0 4 4) 0 (by decide)⟩

/-! ## C14: sequences with fewer than two edges -/

/-- C14, as stated, fails: the two-vertex sequence `[(0,0),(4,0)]` has one edge, and the
point `(2,-1)` gets the value 1 and is treated as contained. -/
theorem two_vertices_nonzero :
    ([(⟨0, 0⟩ : Coord), ⟨4, 0⟩]).length = 2 ∧
    windingNumberTest ⟨2, -1⟩ [⟨0, 0⟩, ⟨4, 0⟩] = some 1 ∧
    contained ⟨2, -1⟩ [⟨0, 0⟩, ⟨4, 0⟩] = true := by
  have h : windingNumberTest ⟨2, -1⟩ [⟨0, 0⟩, ⟨4, 0⟩] = some 1 := by
    norm_num [windingNumberTest, windingLoop, windingStep, isLeft]
  exact ⟨rfl, h, by simp [contained, h]⟩

/-- C14, amended: for every point and every vertex sequence of length 0 or 1, and every
closed vertex sequence of length 2 (its two vertices are equal), `windingNumberTest`
returns 0, so the point is not contained. -/
theorem windingNumberTest_few_edges (p : Coord) (v : List Coord)
    (h : v.length ≤ 1 ∨ (v.length = 2 ∧ closedRing v = true)) :
    windingNumberTest p v = some 0 ∧ contained p v = false := by
  have hw : wnFold p v 0 = 0 := by
    match v, h with
    | [], _ => rfl
    | [_], _ => rfl
    | [a, b], h =>
      rcases h with h | ⟨_, hc⟩
      · simp at h
      · have hab : a = b := by
          have := of_decide_eq_true hc
          simpa using this
        subst hab
        simp only [wnFold]
        exact windingStep_flat p a a rfl 0
    | _ :: _ :: _ :: _, h =>
      rcases h with h | ⟨h, _⟩ <;> simp at h
  exact ⟨by rw [windingNumberTest_eq_wnFold, hw], by simp [contained_eq, hw]⟩

theorem windingNumberTest_few_edges_witness :
    (([(⟨1, 3⟩ : Coord), ⟨1, 3⟩]).length ≤ 1 ∨
      (([(⟨1, 3⟩ : Coord), ⟨1, 3⟩]).length = 2 ∧
        closedRing [(⟨1, 3⟩ : Coord), ⟨1, 3⟩] = true)) ∧
    windingNumberTest ⟨2, -1⟩ [⟨1, 3⟩, ⟨1, 3⟩] = some 0 ∧
    contained ⟨2, -1⟩ [⟨1, 3⟩, ⟨1, 3⟩] = false :=
  ⟨Or.inr ⟨rfl, by decide⟩,
   windingNumberTest_few_edges ⟨2, -1⟩ [⟨1, 3⟩, ⟨1, 3⟩] (Or.inr ⟨rfl, by decide⟩)⟩



/-! ## C17: reversing the ring -/

theorem windingStep_add (p a b : Coord) (wn : Int) :
    windingStep p a b wn = wn + windingStep p a b 0 := by
  rw [windingStep_eq p a b wn, windingStep_eq p a b 0]; ring

theorem isLeft_swap (a b p : Coord) : isLeft b a p = -isLeft a b p := by
  simp only [isLeft]; ring

theorem windingStep_swap (p a b : Coord) :
    windingStep p b a 0 = -windingStep p a b 0 := by
  unfold windingStep
  rw [isLeft_swap a b p]
  by_cases h1 : a.Lat ≤ p.Lat
  · have h1n : ¬ a.Lat > p.Lat := not_lt.mpr h1
    by_cases h2 : b.Lat ≤ p.Lat
    · have h2n : ¬ b.Lat > p.Lat := not_lt.mpr h2
      simp [h1, h1n, h2, h2n]
    · have h2p : b.Lat > p.Lat := not_le.mp h2
      by_cases h3 : isLeft a b p > 0
      · have h3n : -isLeft a b p < 0 := by linarith
        simp [h1, h1n, h2, h2p, h3, h3n]
      · have h3n : ¬ -isLeft a b p < 0 := by intro h; apply h3; linarith
        simp [h1, h1n, h2, h2p, h3, h3n]
  · have h1p : a.Lat > p.Lat := not_le.mp h1
    by_cases h2 : b.Lat ≤ p.Lat
    · have h2n : ¬ b.Lat > p.Lat := not_lt.mpr h2
      by_cases h3 : isLeft a b p < 0
      · have h3n : -isLeft a b p > 0 := by linarith
        simp [h1, h1p, h2, h2n, h3, h3n]
      · have h3n : ¬ -isLeft a b p > 0 := by intro h; apply h3; linarith
        simp [h1, h1p, h2, h2n, h3, h3n]
    · have h2p : b.Lat > p.Lat := not_le.mp h2
      simp [h1, h1p, h2, h2p]

theorem wnFold_add (p : Coord) :
    ∀ (v : List Coord) (wn : Int), wnFold p v wn = wn + wnFold p v 0
  | [], wn => by simp [wnFold]
  | [_], wn => by simp [wnFold]
  | a :: b :: rest, wn => by
    rw [wnFold, wnFold, wnFold_add p (b :: rest) (windingStep p a b wn),
      wnFold_add p (b :: rest) (windingStep p a b 0), windingStep_add p a b wn]
    ring

theorem wnFold_cons_cons (p a b : Coord) (rest : List Coord) :
    wnFold p (a :: b :: rest) 0 = windingStep p a b 0 + wnFold p (b :: rest) 0 := by
  rw [wnFold, wnFold_add]

theorem wnFold_snoc (p b a : Coord) :
    ∀ l : List Coord,
      wnFold p (l ++ [b, a]) 0 = wnFold p (l ++ [b]) 0 + windingStep p b a 0
  | [] => by simp [wnFold]
  | [c] => by
    simp only [List.singleton_append, wnFold_cons_cons]
    simp [wnFold]
  | c :: d :: l => by
    have ih := wnFold_snoc p b a (d :: l)
    simp only [List.cons_append] at ih ⊢
    rw [wnFold_cons_cons, wnFold_cons_cons, ih]
    ring

theorem wnFold_reverse (p : Coord) :
    ∀ v : List Coord, wnFold p v.reverse 0 = -wnFold p v 0
  | [] => by simp [wnFold]
  | [_] => by simp [wnFold]
  | a :: b :: rest => by
    have ih := wnFold_reverse p (b :: rest)
    have e : (a :: b :: rest).reverse = rest.reverse ++ [b, a] := by simp
    have e2 : (b :: rest).reverse = rest.reverse ++ [b] := by simp
    rw [e, wnFold_snoc, ← e2, ih, wnFold_cons_cons, windingStep_swap]
    ring

/-- C17: reversing the vertex sequence negates the value of `windingNumberTest`, so
whether the point is contained does not depend on the orientation of the ring. -/
theorem windingNumberTest_reverse (p : Coord) (v : List Coord) :
    windingNumberTest p v.reverse = (windingNumberTest p v).map (fun wn => -wn) ∧
    contained p v.reverse = contained p v := by
  refine ⟨?_, ?_⟩
  · rw [windingNumberTest_eq_wnFold, windingNumberTest_eq_wnFold, wnFold_reverse]
    rfl
  · rw [contained_eq, contained_eq, wnFold_reverse]
    rw [Bool.eq_iff_iff, bne_iff_ne, bne_iff_ne, ne_eq, ne_eq, neg_eq_zero]



/-! ## C16: the centroid of a convex ring -/

theorem wnFold_eq_sum (p : Coord) :
    ∀ v : List Coord,
      wnFold p v 0 = ((edges v).map (fun e => windingStep p e.1 e.2 0)).sum
  | [] => by simp [wnFold, edges]
  | [_] => by simp [wnFold, edges]
  | a :: b :: rest => by
    rw [wnFold_cons_cons, wnFold_eq_sum p (b :: rest)]
    simp [edges]

theorem edges_mem_of_suffix (l1 : List Coord) :
    ∀ (l2 : List Coord) (e : Coord × Coord), e ∈ edges l2 → e ∈ edges (l1 ++ l2) := by
  induction l1 with
  | nil => intro l2 e h; simpa using h
  | cons a l1 ih =>
    intro l2 e h
    have h2 := ih l2 e h
    match hl : l1 ++ l2, h2 with
    | [], h2 => simp [edges] at h2
    | b :: r, h2 =>
      rw [List.cons_append, hl]
      simp only [edges, List.mem_cons]
      exact Or.inr h2

theorem edges_mem_vertices :
    ∀ (v : List Coord) (e : Coord × Coord), e ∈ edges v → e.1 ∈ v ∧ e.2 ∈ v
  | [], e, h => by simp [edges] at h
  | [_], e, h => by simp [edges] at h
  | a :: b :: rest, e, h => by
    simp only [edges, List.mem_cons] at h
    rcases h with rfl | h
    · simp
    · have := edges_mem_vertices (b :: rest) e h
      exact ⟨List.mem_cons_of_mem _ this.1, List.mem_cons_of_mem _ this.2⟩

/-- A sequence that starts at or below the latitude `x` and has a vertex above it has an
edge that crosses upward. -/
theorem exists_up_edge_of_head (x : ℚ) :
    ∀ (a : Coord) (rest : List Coord), a.Lat ≤ x → (∃ c ∈ a :: rest, x < c.Lat) →
      ∃ e ∈ edges (a :: rest), e.1.Lat ≤ x ∧ x < e.2.Lat
  | a, [], ha, ⟨c, hc, hx⟩ => by
    simp only [List.mem_singleton] at hc
    subst hc
    exact absurd hx (not_lt.mpr ha)
  | a, b :: rest, ha, ⟨c, hc, hx⟩ => by
    by_cases hb : x < b.Lat
    · exact ⟨(a, b), by simp [edges], ha, hb⟩
    · have hc2 : c ∈ b :: rest := by
        rcases List.mem_cons.mp hc with rfl | h
        · exact absurd hx (not_lt.mpr ha)
        · exact h
      obtain ⟨e, he, h1, h2⟩ :=
        exists_up_edge_of_head x b rest (not_lt.mp hb) ⟨c, hc2, hx⟩
      exact ⟨e, by simp only [edges, List.mem_cons]; exact Or.inr he, h1, h2⟩

/-- A closed sequence with a vertex at or below the latitude `x` and a vertex above it has
an edge that crosses upward. -/
theorem exists_up_edge (x : ℚ) (v : List Coord) (hclosed : closedRing v = true)
    (hlo : ∃ c ∈ v, c.Lat ≤ x) (hhi : ∃ c ∈ v, x < c.Lat) :
    ∃ e ∈ edges v, e.1.Lat ≤ x ∧ x < e.2.Lat := by
  match v, hclosed, hlo, hhi with
  | [], _, ⟨c, hc, _⟩, _ => simp at hc
  | a :: rest, hclosed, hlo, hhi =>
    by_cases ha : a.Lat ≤ x
    · exact exists_up_edge_of_head x a rest ha hhi
    · obtain ⟨c, hc, hcx⟩ := hlo
      obtain ⟨l1, l2, hsplit⟩ := List.append_of_mem hc
      have hlast : (a :: rest).getLast (List.cons_ne_nil a rest) = a := by
        have := of_decide_eq_true hclosed
        rw [List.head?_cons, List.getLast?_eq_getLast _ (List.cons_ne_nil a rest)] at this
        exact (Option.some.inj this).symm
      have hmem : a ∈ c :: l2 := by
        have h1 : (l1 ++ c :: l2).getLast (by simp) = a := by
          simpa [hsplit] using hlast
        rw [List.getLast_append_of_ne_nil (List.cons_ne_nil c l2)] at h1
        rw [← h1]
        exact List.getLast_mem _
      obtain ⟨e, he, h1, h2⟩ :=
        exists_up_edge_of_head x c l2 hcx ⟨a, hmem, not_le.mp ha⟩
      exact ⟨e, by rw [hsplit]; exact edges_mem_of_suffix l1 _ e he, h1, h2⟩



theorem windingStep_zero_nonneg (p a b : Coord) (h : 0 ≤ isLeft a b p) :
    0 ≤ windingStep p a b 0 := by
  unfold windingStep
  have hn : ¬ isLeft a b p < 0 := not_lt.mpr h
  split_ifs <;> simp

theorem windingStep_zero_up (p a b : Coord) (h1 : a.Lat ≤ p.Lat) (h2 : p.Lat < b.Lat)
    (h : 0 < isLeft a b p) : windingStep p a b 0 = 1 := by
  unfold windingStep
  simp [h1, h2, h]

/-- The core of the containment argument: a closed ring whose edges all have the point on
their left or on them, strictly so for the edges that cross upward, and that has vertices
on both sides of the point's latitude, winds at least once around the point. -/
theorem one_le_wnFold (p : Coord) (v : List Coord) (hclosed : closedRing v = true)
    (hleft : ∀ e ∈ edges v, 0 ≤ isLeft e.1 e.2 p)
    (hstrict : ∀ e ∈ edges v, e.1.Lat ≤ p.Lat → p.Lat < e.2.Lat → 0 < isLeft e.1 e.2 p)
    (hlo : ∃ c ∈ v, c.Lat ≤ p.Lat) (hhi : ∃ c ∈ v, p.Lat < c.Lat) :
    1 ≤ wnFold p v 0 := by
  obtain ⟨e, he, h1, h2⟩ := exists_up_edge p.Lat v hclosed hlo hhi
  rw [wnFold_eq_sum]
  have hone : windingStep p e.1 e.2 0 = 1 :=
    windingStep_zero_up p e.1 e.2 h1 h2 (hstrict e he h1 h2)
  have hmem : (1 : Int) ∈ (edges v).map (fun e => windingStep p e.1 e.2 0) :=
    List.mem_map.mpr ⟨e, he, hone⟩
  refine List.single_le_sum ?_ 1 hmem
  intro x hx
  obtain ⟨e2, he2, rfl⟩ := List.mem_map.mp hx
  exact windingStep_zero_nonneg p e2.1 e2.2 (hleft e2 he2)

theorem edges_snoc (b a : Coord) :
    ∀ l : List Coord, edges (l ++ [b, a]) = edges (l ++ [b]) ++ [(b, a)]
  | [] => by simp [edges]
  | [c] => by simp [edges]
  | c :: d :: l => by
    have ih := edges_snoc b a (d :: l)
    simp only [List.cons_append] at ih ⊢
    simp only [edges, ih, List.cons_append]

theorem edges_reverse :
    ∀ v : List Coord, edges v.reverse = ((edges v).map Prod.swap).reverse
  | [] => by simp [edges]
  | [_] => by simp [edges]
  | a :: b :: rest => by
    have ih := edges_reverse (b :: rest)
    have e : (a :: b :: rest).reverse = rest.reverse ++ [b, a] := by simp
    have e2 : (b :: rest).reverse = rest.reverse ++ [b] := by simp
    rw [e, edges_snoc, ← e2, ih]
    simp [edges]

theorem closedRing_reverse (v : List Coord) (h : closedRing v = true) :
    closedRing v.reverse = true := by
  have := of_decide_eq_true h
  unfold closedRing
  simp only [List.head?_reverse, List.getLast?_reverse, decide_eq_true_eq]
  exact this.symm

/-- The mirrored core: with the point on the right of or on every edge, strictly so for
the edges that cross downward, the ring winds at least once the other way. -/
theorem wnFold_le_neg_one (p : Coord) (v : List Coord) (hclosed : closedRing v = true)
    (hright : ∀ e ∈ edges v, isLeft e.1 e.2 p ≤ 0)
    (hstrict : ∀ e ∈ edges v, e.2.Lat ≤ p.Lat → p.Lat < e.1.Lat → isLeft e.1 e.2 p < 0)
    (hlo : ∃ c ∈ v, c.Lat ≤ p.Lat) (hhi : ∃ c ∈ v, p.Lat < c.Lat) :
    wnFold p v 0 ≤ -1 := by
  have hmemr : ∀ e, e ∈ edges v.reverse → (e.2, e.1) ∈ edges v := by
    intro e he
    rw [edges_reverse, List.mem_reverse, List.mem_map] at he
    obtain ⟨e2, he2, rfl⟩ := he
    simpa using he2
  have h := one_le_wnFold p v.reverse (closedRing_reverse v hclosed)
    (fun e he => by
      have := hright _ (hmemr e he)
      rw [isLeft_swap e.2 e.1 p]
      simpa using this)
    (fun e he h1 h2 => by
      have := hstrict _ (hmemr e he) h1 h2
      rw [isLeft_swap e.2 e.1 p]
      simpa using this)
    (by obtain ⟨c, hc, hx⟩ := hlo; exact ⟨c, List.mem_reverse.mpr hc, hx⟩)
    (by obtain ⟨c, hc, hx⟩ := hhi; exact ⟨c, List.mem_reverse.mpr hc, hx⟩)
  rw [wnFold_reverse] at h
  linarith



theorem sum_isLeft (a b : Coord) :
    ∀ L : List Coord,
      (L.map (fun c => isLeft a b c)).sum
        = (b.Lng - a.Lng) * ((L.map (fun c => c.Lat)).sum - (L.length : ℚ) * a.Lat)
          - ((L.map (fun c => c.Lng)).sum - (L.length : ℚ) * a.Lng) * (b.Lat - a.Lat)
  | [] => by simp
  | c :: L => by
    simp only [List.map_cons, List.sum_cons, List.length_cons, sum_isLeft a b L]
    simp only [isLeft]
    push_cast
    ring

theorem centroid_isLeft (a b : Coord) (v : List Coord) (hm : v.dropLast ≠ []) :
    (v.dropLast.length : ℚ) * isLeft a b (centroid v)
      = (v.dropLast.map (fun c => isLeft a b c)).sum := by
  have hpos : (v.dropLast.length : ℚ) ≠ 0 := by
    have : v.dropLast.length ≠ 0 := fun h => hm (List.length_eq_zero.mp h)
    exact_mod_cast this
  rw [sum_isLeft]
  simp only [isLeft, centroid]
  generalize (v.dropLast.map (fun c => c.Lat)).sum = S1
  generalize (v.dropLast.map (fun c => c.Lng)).sum = S2
  generalize (v.dropLast.length : ℚ) = m at hpos ⊢
  field_simp

theorem sum_lat_sub (x : ℚ) :
    ∀ L : List Coord,
      (L.map (fun c => c.Lat - x)).sum = (L.map (fun c => c.Lat)).sum - (L.length : ℚ) * x
  | [] => by simp
  | c :: L => by
    simp only [List.map_cons, List.sum_cons, List.length_cons, sum_lat_sub x L]
    push_cast
    ring

theorem centroid_lat_sum (v : List Coord) (hm : v.dropLast ≠ []) :
    (v.dropLast.map (fun c => c.Lat - (centroid v).Lat)).sum = 0 := by
  have hpos : (v.dropLast.length : ℚ) ≠ 0 := by
    have : v.dropLast.length ≠ 0 := fun h => hm (List.length_eq_zero.mp h)
    exact_mod_cast this
  rw [sum_lat_sub]
  simp only [centroid]
  generalize (v.dropLast.map (fun c => c.Lat)).sum = S1
  generalize (v.dropLast.length : ℚ) = m at hpos ⊢
  field_simp

theorem collinear_identity (a b u v w : Coord) :
    (b.Lat - a.Lat) * isLeft u v w
      = (v.Lat - u.Lat) * (isLeft a b w - isLeft a b u)
        - (w.Lat - u.Lat) * (isLeft a b v - isLeft a b u) := by
  simp only [isLeft]; ring

theorem mem_dropLast_of_closed (v : List Coord) (hclosed : closedRing v = true)
    (hlen : 2 ≤ v.length) : ∀ c ∈ v, c ∈ v.dropLast := by
  match v, hclosed, hlen with
  | a :: b :: rest, hclosed, _ =>
    intro c hc
    have hne : (a :: b :: rest) ≠ [] := List.cons_ne_nil _ _
    have hlast : (a :: b :: rest).getLast hne = a := by
      have := of_decide_eq_true hclosed
      rw [List.head?_cons, List.getLast?_eq_getLast _ hne] at this
      exact (Option.some.inj this).symm
    have hsplit := List.dropLast_append_getLast hne
    have ha : a ∈ (a :: b :: rest).dropLast := by simp [List.dropLast]
    rw [← hsplit] at hc
    rcases List.mem_append.mp hc with h | h
    · exact h
    · simp only [List.mem_singleton] at h
      rw [h, hlast]
      exact ha



theorem sum_pos_of_mem (l : List ℚ) (hall : ∀ x ∈ l, 0 ≤ x) (x : ℚ) (hx : x ∈ l)
    (hpos : 0 < x) : 0 < l.sum :=
  lt_of_lt_of_le hpos (List.single_le_sum hall x hx)

theorem eq_zero_of_sum_zero (l : List ℚ) (hall : ∀ x ∈ l, 0 ≤ x) (hsum : l.sum = 0) :
    ∀ x ∈ l, x = 0 := by
  intro x hx
  have h1 := List.single_le_sum hall x hx
  have h2 := hall x hx
  linarith

theorem sum_sub_lat (x : ℚ) :
    ∀ L : List Coord,
      (L.map (fun c => x - c.Lat)).sum = (L.length : ℚ) * x - (L.map (fun c => c.Lat)).sum
  | [] => by simp
  | c :: L => by
    simp only [List.map_cons, List.sum_cons, List.length_cons, sum_sub_lat x L]
    push_cast
    ring

/-- The facts on the centroid that the containment argument uses. -/
theorem centroid_facts (v : List Coord) (hclosed : closedRing v = true)
    (hnc : nonCollinear v = true) :
    v.dropLast ≠ [] ∧ (∀ c ∈ v, c ∈ v.dropLast) ∧
    (∃ c ∈ v, c.Lat ≤ (centroid v).Lat) ∧ (∃ c ∈ v, (centroid v).Lat < c.Lat) := by
  simp only [nonCollinear, List.any_eq_true, decide_eq_true_eq] at hnc
  obtain ⟨a0, ha0, b0, hb0, c0, hc0, hne⟩ := hnc
  have hlen : 2 ≤ v.length := by
    match v, ha0, hb0, hc0 with
    | [x], ha0, hb0, hc0 =>
      simp only [List.mem_singleton] at ha0 hb0 hc0
      subst ha0 hb0 hc0
      exact absurd (by simp [isLeft]) hne
    | _ :: _ :: _, _, _, _ => simp
  have hL := mem_dropLast_of_closed v hclosed hlen
  have hm : v.dropLast ≠ [] := by
    intro h
    have := hL a0 ha0
    rw [h] at this
    simp at this
  have hsum := centroid_lat_sum v hm
  refine ⟨hm, hL, ?_, ?_⟩
  · by_contra hcon
    push_neg at hcon
    have hall : ∀ x ∈ v.dropLast.map (fun c => c.Lat - (centroid v).Lat), 0 ≤ x := by
      intro x hx
      obtain ⟨c, hc, rfl⟩ := List.mem_map.mp hx
      have := hcon c (List.mem_of_mem_dropLast hc)
      linarith
    have hz := eq_zero_of_sum_zero _ hall hsum
    have := hz _ (List.mem_map.mpr ⟨a0, hL a0 ha0, rfl⟩)
    have h2 := hcon a0 ha0
    linarith
  · by_contra hcon
    push_neg at hcon
    have hall : ∀ x ∈ v.dropLast.map (fun c => (centroid v).Lat - c.Lat), 0 ≤ x := by
      intro x hx
      obtain ⟨c, hc, rfl⟩ := List.mem_map.mp hx
      have := hcon c (List.mem_of_mem_dropLast hc)
      linarith
    have hsum2 : (v.dropLast.map (fun c => (centroid v).Lat - c.Lat)).sum = 0 := by
      have h1 := sum_lat_sub (centroid v).Lat v.dropLast
      rw [hsum] at h1
      rw [sum_sub_lat]
      linarith
    have hz := eq_zero_of_sum_zero _ hall hsum2
    have hlat : ∀ c ∈ v, c.Lat = (centroid v).Lat := by
      intro c hc
      have := hz _ (List.mem_map.mpr ⟨c, hL c hc, rfl⟩)
      linarith
    apply hne
    simp only [isLeft, hlat a0 ha0, hlat b0 hb0, hlat c0 hc0]
    ring



/-- With all vertices on the left of or on the edge `(a, b)`, which rises in latitude, the
centroid of a ring with three vertices not on one line is strictly left of the edge. -/
theorem centroid_strictly_left (v : List Coord) (hnc : nonCollinear v = true)
    (hm : v.dropLast ≠ []) (hL : ∀ c ∈ v, c ∈ v.dropLast) (a b : Coord)
    (hab : a.Lat ≠ b.Lat) (hall : ∀ c ∈ v, 0 ≤ isLeft a b c) :
    0 < isLeft a b (centroid v) := by
  simp only [nonCollinear, List.any_eq_true, decide_eq_true_eq] at hnc
  obtain ⟨a0, ha0, b0, hb0, c0, hc0, hne⟩ := hnc
  have hmpos : (0 : ℚ) < (v.dropLast.length : ℚ) := by
    have : 0 < v.dropLast.length := List.length_pos.mpr hm
    exact_mod_cast this
  have hnonneg : ∀ x ∈ v.dropLast.map (fun c => isLeft a b c), 0 ≤ x := by
    intro x hx
    obtain ⟨c, hc, rfl⟩ := List.mem_map.mp hx
    exact hall c (List.mem_of_mem_dropLast hc)
  have hex : ∃ c ∈ v, 0 < isLeft a b c := by
    by_contra hcon
    push_neg at hcon
    have hz : ∀ c ∈ v, isLeft a b c = 0 := fun c hc => le_antisymm (hcon c hc) (hall c hc)
    have hid := collinear_identity a b a0 b0 c0
    rw [hz a0 ha0, hz b0 hb0, hz c0 hc0] at hid
    have hd : b.Lat - a.Lat ≠ 0 := fun h => hab (by linarith)
    have : isLeft a0 b0 c0 = 0 := by
      have h0 : (b.Lat - a.Lat) * isLeft a0 b0 c0 = 0 := by rw [hid]; ring
      rcases mul_eq_zero.mp h0 with h | h
      · exact absurd h hd
      · exact h
    exact hne this
  obtain ⟨c, hc, hcpos⟩ := hex
  have hsum : 0 < (v.dropLast.map (fun c => isLeft a b c)).sum :=
    sum_pos_of_mem _ hnonneg _ (List.mem_map.mpr ⟨c, hL c hc, rfl⟩) hcpos
  rw [← centroid_isLeft a b v hm] at hsum
  exact pos_of_mul_pos_right hsum hmpos.le

theorem centroid_left (v : List Coord) (hm : v.dropLast ≠ []) (a b : Coord)
    (hall : ∀ c ∈ v, 0 ≤ isLeft a b c) : 0 ≤ isLeft a b (centroid v) := by
  have hmpos : (0 : ℚ) < (v.dropLast.length : ℚ) := by
    have : 0 < v.dropLast.length := List.length_pos.mpr hm
    exact_mod_cast this
  have hsum : 0 ≤ (v.dropLast.map (fun c => isLeft a b c)).sum := by
    apply List.sum_nonneg
    intro x hx
    obtain ⟨c, hc, rfl⟩ := List.mem_map.mp hx
    exact hall c (List.mem_of_mem_dropLast hc)
  rw [← centroid_isLeft a b v hm] at hsum
  exact nonneg_of_mul_nonneg_right hsum hmpos

/-- C16, amended: with coordinates modelled exactly, for every closed convex ring with
three vertices not on one line, the mean of its vertices (the closing vertex left out; for
a triangle this is its centroid) has a non-zero value of `windingNumberTest`, so it is
contained. -/
theorem centroid_contained (v : List Coord) (hclosed : closedRing v = true)
    (hconv : convexRing v = true) (hnc : nonCollinear v = true) :
    (∃ wn, windingNumberTest (centroid v) v = some wn ∧ wn ≠ 0) ∧
    contained (centroid v) v = true := by
  obtain ⟨hm, hL, hlo, hhi⟩ := centroid_facts v hclosed hnc
  have hw : wnFold (centroid v) v 0 ≠ 0 := by
    simp only [convexRing, Bool.or_eq_true, List.all_eq_true, decide_eq_true_eq] at hconv
    rcases hconv with hccw | hcw
    · have h := one_le_wnFold (centroid v) v hclosed
        (fun e he => centroid_left v hm e.1 e.2 (hccw e he))
        (fun e he h1 h2 =>
          centroid_strictly_left v hnc hm hL e.1 e.2 (fun h => by linarith) (hccw e he))
        hlo hhi
      omega
    · have hswap : ∀ e ∈ edges v, ∀ c ∈ v, 0 ≤ isLeft e.2 e.1 c := by
        intro e he c hc
        rw [isLeft_swap e.1 e.2 c]
        have := hcw e he c hc
        linarith
      have h := wnFold_le_neg_one (centroid v) v hclosed
        (fun e he => by
          have := centroid_left v hm e.2 e.1 (hswap e he)
          rw [isLeft_swap e.1 e.2] at this
          linarith)
        (fun e he h1 h2 => by
          have := centroid_strictly_left v hnc hm hL e.2 e.1 (fun h => by linarith)
            (hswap e he)
          rw [isLeft_swap e.1 e.2] at this
          linarith)
        hlo hhi
      omega
  exact ⟨⟨_, windingNumberTest_eq_wnFold _ v, hw⟩, by simp [contained_eq, hw]⟩

theorem square_centroid : centroid (rectRing 0 0 4 4) = ⟨2, 2⟩ := by
  simp [centroid, rectRing]
  norm_num

theorem centroid_contained_witness :
    centroid (rectRing 0 0 4 4) = ⟨2, 2⟩ ∧
    closedRing (rectRing 0 0 4 4) = true ∧ convexRing (rectRing 0 0 4 4) = true ∧
    nonCollinear (rectRing 0 0 4 4) = true ∧
    (∃ wn, windingNumberTest (centroid (rectRing 0 0 4 4)) (rectRing 0 0 4 4) = some wn
      ∧ wn ≠ 0) ∧
    contained (centroid (rectRing 0 0 4 4)) (rectRing 0 0 4 4) = true :=
  have hconv : convexRing (rectRing 0 0 4 4) = true := by
    simp [convexRing, rectRing, edges, isLeft]
  have hnc : nonCollinear (rectRing 0 0 4 4) = true := by
    simp only [nonCollinear, List.any_eq_true, decide_eq_true_eq]
    exact ⟨⟨0, 0⟩, by simp [rectRing], ⟨0, 4⟩, by simp [rectRing], ⟨4, 4⟩, by simp [rectRing],
      by norm_num [isLeft]⟩
  ⟨square_centroid, by decide, hconv, hnc,
   centroid_contained (rectRing 0 0 4 4) (by decide) hconv hnc⟩



/-! ## C18: a hole hit abandons the rest of the folder -/

theorem placemarkStep_folder_name (env : Env) (p : Coord) (name : String)
    (pms1 pms2 : List kmlPlacemark) (pm : kmlPlacemark) (s : RepState) :
    placemarkStep env p { Name := name, Placemarks := pms1 } pm s
      = placemarkStep env p { Name := name, Placemarks := pms2 } pm s := rfl

theorem placemarkLoop_folder_name (env : Env) (p : Coord) (name : String)
    (pms1 pms2 : List kmlPlacemark) :
    ∀ (l : List kmlPlacemark) (s : RepState),
      placemarkLoop env p { Name := name, Placemarks := pms1 } l s
        = placemarkLoop env p { Name := name, Placemarks := pms2 } l s
  | [], s => rfl
  | pm :: l, s => by
    simp only [placemarkLoop, placemarkStep_folder_name env p name pms1 pms2 pm s]
    cases placemarkStep env p { Name := name, Placemarks := pms2 } pm s with
    | next s1 => exact placemarkLoop_folder_name env p name pms1 pms2 l s1
    | continueFolder s1 => rfl
    | panic s1 => rfl

theorem placemarkStep_of_holeHit (env : Env) (p : Coord) (f : kmlFolder) (pm : kmlPlacemark)
    (s : RepState) (h : holeHit env p pm = true) :
    placemarkStep env p f pm s = .continueFolder (announce env.parseTime pm s) ∨
    placemarkStep env p f pm s = .panic (announce env.parseTime pm s) := by
  rcases placemarkStep_cases env p f pm s with h1 | h1 | h1
  · rw [h1.2] at h; cases h
  · exact Or.inl h1.1
  · exact Or.inr h1

theorem placemarkLoop_of_holeHit (env : Env) (p : Coord) (f : kmlFolder) (pm : kmlPlacemark)
    (h : holeHit env p pm = true) :
    ∀ (pre post : List kmlPlacemark) (s : RepState),
      placemarkLoop env p f (pre ++ pm :: post) s = placemarkLoop env p f (pre ++ [pm]) s
  | [], post, s => by
    simp only [List.nil_append, placemarkLoop]
    rcases placemarkStep_of_holeHit env p f pm s h with h1 | h1 <;> rw [h1]
  | q :: pre, post, s => by
    simp only [List.cons_append, placemarkLoop]
    cases placemarkStep env p f q s with
    | next s1 => exact placemarkLoop_of_holeHit env p f pm h pre post s1
    | continueFolder s1 => rfl
    | panic s1 => rfl

theorem folderLoop_append_congr (env : Env) (p : Coord) (f1 f2 : kmlFolder)
    (after : List kmlFolder)
    (h : ∀ s, placemarkLoop env p f1 f1.Placemarks s = placemarkLoop env p f2 f2.Placemarks s) :
    ∀ (before : List kmlFolder) (s : RepState),
      folderLoop env p (before ++ f1 :: after) s = folderLoop env p (before ++ f2 :: after) s
  | [], s => by simp only [List.nil_append, folderLoop, h s]
  | g :: before, s => by
    simp only [List.cons_append, folderLoop]
    cases placemarkLoop env p g g.Placemarks s with
    | next s1 => exact folderLoop_append_congr env p f1 f2 after h before s1
    | continueFolder s1 => exact folderLoop_append_congr env p f1 f2 after h before s1
    | panic s1 => rfl

/-- C18: when the point is inside the outer ring and inside some inner ring of a
placemark, the report is the same as if the folder ended at that placemark: the later
placemarks of the folder add no line and do not change the remembered interval.  The
iteration of that placemark ends by `continue FolderLoop` in the state of its interval
comparison (or by a panic of `Coords` on an inner ring read before), and after `continue
FolderLoop` the run goes on with the next folder. -/
theorem hole_hit_abandons_folder :
    (∀ (env : Env) (p : Coord) (before after : List kmlFolder) (name : String)
        (pre post : List kmlPlacemark) (pm : kmlPlacemark),
      holeHit env p pm = true →
      report env p (before ++ { Name := name, Placemarks := pre ++ pm :: post } :: after)
        = report env p (before ++ { Name := name, Placemarks := pre ++ [pm] } :: after)) ∧
    (∀ (env : Env) (p : Coord) (f : kmlFolder) (pm : kmlPlacemark) (post : List kmlPlacemark)
        (s : RepState),
      holeHit env p pm = true →
      placemarkLoop env p f (pm :: post) s = .continueFolder (announce env.parseTime pm s) ∨
      placemarkLoop env p f (pm :: post) s = .panic (announce env.parseTime pm s)) ∧
    (∀ (env : Env) (p : Coord) (name : String) (pm : kmlPlacemark)
        (post : List kmlPlacemark) (rest : List kmlFolder) (s : RepState),
      placemarkStep env p { Name := name, Placemarks := pm :: post } pm s
        = .continueFolder (announce env.parseTime pm s) →
      folderLoop env p ({ Name := name, Placemarks := pm :: post } :: rest) s
        = folderLoop env p rest (announce env.parseTime pm s)) := by
  refine ⟨?_, ?_, ?_⟩
  · intro env p before after name pre post pm h
    have hl : ∀ s, placemarkLoop env p { Name := name, Placemarks := pre ++ pm :: post }
          (pre ++ pm :: post) s
        = placemarkLoop env p { Name := name, Placemarks := pre ++ [pm] } (pre ++ [pm]) s := by
      intro s
      rw [placemarkLoop_of_holeHit env p _ pm h pre post s]
      exact placemarkLoop_folder_name env p name _ _ _ s
    simp only [report]
    rw [folderLoop_append_congr env p _ _ after hl before]
  · intro env p f pm post s h
    simp only [placemarkLoop]
    rcases placemarkStep_of_holeHit env p f pm s h with h1 | h1 <;> rw [h1]
    · exact Or.inl rfl
    · exact Or.inr rfl
  · intro env p name pm post rest s h
    simp only [folderLoop, placemarkLoop, h]

theorem hole_hit_abandons_folder_witness :
    holeHit sampleEnv ⟨2, 2⟩ holedPlacemark = true ∧
    report sampleEnv ⟨2, 2⟩
        ([] ++ { Name := "day1otlk_20130519_1630_torn",
                 Placemarks := [] ++ holedPlacemark :: [plainPlacemark] } :: [])
      = report sampleEnv ⟨2, 2⟩
        ([] ++ { Name := "day1otlk_20130519_1630_torn",
                 Placemarks := [] ++ [holedPlacemark] } :: []) :=
  ⟨holedPlacemark_holeHit,
   hole_hit_abandons_folder.1 sampleEnv ⟨2, 2⟩ [] [] "day1otlk_20130519_1630_torn" []
     [plainPlacemark] holedPlacemark holedPlacemark_holeHit⟩



/-! ## C11: time stamps that fail to parse -/

theorem badStampCatalog_report :
    report sampleEnv ⟨2, 2⟩ badStampCatalog
      = { out := [.valid 63504648000 63504734400,
                  .matchLine "Risk of tornado within 25 miles: 2 %",
                  .valid 0 63504648000,
                  .matchLine "Risk of tornado within 25 miles: 5 %"],
          panicked := false } := by
  simp [report, badStampCatalog, folderLoop, placemarkLoop, placemarkStep, holeLoop, announce,
    plainPlacemark, badStampPlacemark, sampleEnv, sampleSquare_coords, centre_in_square,
    kmlPlacemark.Begin, kmlPlacemark.End, sampleParseTime, zeroTime, Tag_eq]
  decide

/-- C11, as stated, fails: in the sample catalog the second region has a begin time stamp
that does not parse, and the report announces for it an interval that begins at the zero
time. -/
theorem unparsed_stamp_announced :
    sampleEnv.parseTime badStampPlacemark.BeginStr = none ∧
    (report sampleEnv ⟨2, 2⟩ badStampCatalog).panicked = false ∧
    announcements (report sampleEnv ⟨2, 2⟩ badStampCatalog).out
      = [(63504648000, 63504734400), (zeroTime, 63504648000)] := by
  refine ⟨by decide, ?_, ?_⟩
  · rw [badStampCatalog_report]
  · rw [badStampCatalog_report]; rfl

theorem getLast?_cons_getD (x last : Time × Time) (l : List (Time × Time)) :
    (x :: l).getLast?.getD last = l.getLast?.getD x := by
  cases l with
  | nil => rfl
  | cons y l => simp [List.getLast?_cons_cons, List.getLast?_eq_getLast]

theorem collapse_append :
    ∀ (l1 l2 : List (Time × Time)) (last : Time × Time),
      collapse last (l1 ++ l2) = collapse last l1 ++ collapse (l1.getLast?.getD last) l2
  | [], l2, last => by simp [collapse]
  | x :: l1, l2, last => by
    have ih := collapse_append l1 l2 x
    rw [getLast?_cons_getD]
    by_cases h : x = last
    · simp only [List.cons_append, collapse, h, if_true]
      rw [← h]; exact ih
    · simp only [List.cons_append, collapse, h, if_false]
      exact congrArg (List.cons x) ih

theorem collapse_cons (last x : Time × Time) (l : List (Time × Time)) :
    collapse last (x :: l) = (if x = last then [] else [x]) ++ collapse x l := by
  by_cases h : x = last <;> simp [collapse, h]

/-- C11, amended: in a run that does not panic, a region that is not skipped after a hole
hit and whose begin or end time stamp fails to parse is read with the zero time in the
place of that time stamp; the interval so read is announced exactly when it differs from
the interval read for the preceding such region (from the pair of zero times when it is
the first), and the regions after it are compared against the interval so read. -/
theorem unparsed_stamp_announced_as_read (env : Env) (p : Coord) (folders : List kmlFolder)
    (pre post : List (kmlFolder × kmlPlacemark)) (f : kmlFolder) (pm : kmlPlacemark)
    (hp : (report env p folders).panicked = false)
    (hv : visitedPairs env p folders = pre ++ (f, pm) :: post)
    (hbad : env.parseTime pm.BeginStr = none ∨ env.parseTime pm.EndStr = none) :
    intervalOf env pm
      = ((env.parseTime pm.BeginStr).getD zeroTime, (env.parseTime pm.EndStr).getD zeroTime) ∧
    ((intervalOf env pm).1 = zeroTime ∨ (intervalOf env pm).2 = zeroTime) ∧
    announcements (report env p folders).out
      = collapse (zeroTime, zeroTime) (pre.map (fun fp => intervalOf env fp.2))
        ++ (if intervalOf env pm = lastIntervalOf (pre.map (fun fp => intervalOf env fp.2))
            then [] else [intervalOf env pm])
        ++ collapse (intervalOf env pm) (post.map (fun fp => intervalOf env fp.2)) := by
  have hi : intervalOf env pm
      = ((env.parseTime pm.BeginStr).getD zeroTime,
         (env.parseTime pm.EndStr).getD zeroTime) := by
    unfold intervalOf kmlPlacemark.Begin kmlPlacemark.End
    cases env.parseTime pm.BeginStr <;> cases env.parseTime pm.EndStr <;> rfl
  refine ⟨hi, ?_, ?_⟩
  · rw [hi]
    rcases hbad with h | h
    · left; simp [h]
    · right; simp [h]
  · have ha : announcements (report env p folders).out
        = collapse (zeroTime, zeroTime)
            ((visitedPairs env p folders).map (fun fp => intervalOf env fp.2)) := by
      rw [report_out_of_no_panic env p folders hp]
      split_ifs
      · rw [announcements_noThreat, emitPairs_announcements]; simp [initState, announcements]
      · rw [emitPairs_announcements]; simp [initState, announcements]
    rw [ha, hv, List.map_append, List.map_cons, collapse_append, collapse_cons]
    simp only [lastIntervalOf, List.append_assoc]

theorem unparsed_stamp_announced_as_read_witness :
    (report sampleEnv ⟨2, 2⟩ badStampCatalog).panicked = false ∧
    (sampleEnv.parseTime badStampPlacemark.BeginStr = none ∨
      sampleEnv.parseTime badStampPlacemark.EndStr = none) ∧
    intervalOf sampleEnv badStampPlacemark = (zeroTime, 63504648000) ∧
    announcements (report sampleEnv ⟨2, 2⟩ badStampCatalog).out
      = collapse (zeroTime, zeroTime) [intervalOf sampleEnv plainPlacemark]
        ++ (if intervalOf sampleEnv badStampPlacemark
              = lastIntervalOf [intervalOf sampleEnv plainPlacemark]
            then [] else [intervalOf sampleEnv badStampPlacemark])
        ++ collapse (intervalOf sampleEnv badStampPlacemark) [] :=
  have hp : (report sampleEnv ⟨2, 2⟩ badStampCatalog).panicked = false := by
    rw [badStampCatalog_report]
  have hb : sampleEnv.parseTime badStampPlacemark.BeginStr = none := by decide
  have hv : visitedPairs sampleEnv ⟨2, 2⟩ badStampCatalog
      = [({ Name := "day1otlk_20130519_1630_torn",
            Placemarks := [plainPlacemark, badStampPlacemark] }, plainPlacemark)]
        ++ ({ Name := "day1otlk_20130519_1630_torn",
              Placemarks := [plainPlacemark, badStampPlacemark] }, badStampPlacemark) :: [] := by
    simp [visitedPairs, visited, holeHit, badStampCatalog, plainPlacemark, badStampPlacemark]
  have h := unparsed_stamp_announced_as_read sampleEnv ⟨2, 2⟩ badStampCatalog _ _ _ _
    hp hv (Or.inl hb)
  ⟨hp, Or.inl hb, by rw [h.1]; decide, h.2.2⟩

/-! ## C12: the first interval announcement -/

theorem placemarkStep_out (env : Env) (p : Coord) (f : kmlFolder) (pm : kmlPlacemark)
    (s : RepState) :
    ∃ ext, (placemarkStep env p f pm s).state.out = (announce env.parseTime pm s).out ++ ext := by
  rcases placemarkStep_cases env p f pm s with h | h | h
  · rw [h.1]
    refine ⟨if matchesPoint env p pm then [matchLineOf f pm] else [], ?_⟩
    simp only [Flow.state, emit_out, announce_out]
  · rw [h.1]; exact ⟨[], by simp [Flow.state]⟩
  · rw [h]; exact ⟨[], by simp [Flow.state]⟩

theorem announce_out_grows (env : Env) (pm : kmlPlacemark) (s : RepState) :
    ∃ ext, (announce env.parseTime pm s).out = s.out ++ ext :=
  ⟨_, announce_out env pm s⟩

theorem placemarkLoop_out (env : Env) (p : Coord) (f : kmlFolder) :
    ∀ (pms : List kmlPlacemark) (s : RepState),
      ∃ ext, (placemarkLoop env p f pms s).state.out = s.out ++ ext
  | [], s => ⟨[], by simp [placemarkLoop, Flow.state]⟩
  | pm :: pms, s => by
    obtain ⟨e1, h1⟩ := placemarkStep_out env p f pm s
    obtain ⟨e0, h0⟩ := announce_out_grows env pm s
    simp only [placemarkLoop]
    cases hs : placemarkStep env p f pm s with
    | next s1 =>
      rw [hs] at h1
      obtain ⟨e2, h2⟩ := placemarkLoop_out env p f pms s1
      refine ⟨e0 ++ e1 ++ e2, ?_⟩
      simp only [Flow.state] at h1
      rw [h2, h1, h0]
      simp
    | continueFolder s1 =>
      rw [hs] at h1
      exact ⟨e0 ++ e1, by simp only [Flow.state] at h1 ⊢; rw [h1, h0]; simp⟩
    | panic s1 =>
      rw [hs] at h1
      exact ⟨e0 ++ e1, by simp only [Flow.state] at h1 ⊢; rw [h1, h0]; simp⟩

theorem placemarkLoop_cons_out (env : Env) (p : Coord) (f : kmlFolder) (pm : kmlPlacemark)
    (pms : List kmlPlacemark) (s : RepState) :
    ∃ ext, (placemarkLoop env p f (pm :: pms) s).state.out
      = (announce env.parseTime pm s).out ++ ext := by
  obtain ⟨e1, h1⟩ := placemarkStep_out env p f pm s
  simp only [placemarkLoop]
  cases hs : placemarkStep env p f pm s with
  | next s1 =>
    rw [hs] at h1
    obtain ⟨e2, h2⟩ := placemarkLoop_out env p f pms s1
    refine ⟨e1 ++ e2, ?_⟩
    simp only [Flow.state] at h1
    rw [h2, h1]
    simp
  | continueFolder s1 =>
    rw [hs] at h1
    exact ⟨e1, by simpa [Flow.state] using h1⟩
  | panic s1 =>
    rw [hs] at h1
    exact ⟨e1, by simpa [Flow.state] using h1⟩

theorem folderLoop_out (env : Env) (p : Coord) :
    ∀ (folders : List kmlFolder) (s : RepState),
      ∃ ext, (folderLoop env p folders s).1.out = s.out ++ ext
  | [], s => ⟨[], by simp [folderLoop]⟩
  | f :: rest, s => by
    obtain ⟨e1, h1⟩ := placemarkLoop_out env p f f.Placemarks s
    simp only [folderLoop]
    cases hs : placemarkLoop env p f f.Placemarks s with
    | next s1 =>
      rw [hs] at h1
      obtain ⟨e2, h2⟩ := folderLoop_out env p rest s1
      simp only [Flow.state] at h1
      exact ⟨e1 ++ e2, by rw [h2, h1]; simp⟩
    | continueFolder s1 =>
      rw [hs] at h1
      obtain ⟨e2, h2⟩ := folderLoop_out env p rest s1
      simp only [Flow.state] at h1
      exact ⟨e1 ++ e2, by rw [h2, h1]; simp⟩
    | panic s1 =>
      rw [hs] at h1
      simp only [Flow.state] at h1
      exact ⟨e1, h1⟩

theorem folderLoop_first_region (env : Env) (p : Coord) :
    ∀ (folders : List kmlFolder) (f : kmlFolder) (pm : kmlPlacemark)
      (tail : List (kmlFolder × kmlPlacemark)),
      catalogPairs folders = (f, pm) :: tail →
      ∃ ext, (folderLoop env p folders initState).1.out
        = (announce env.parseTime pm initState).out ++ ext
  | [], f, pm, tail, h => by simp [catalogPairs] at h
  | g :: rest, f, pm, tail, h => by
    cases hg : g.Placemarks with
    | nil =>
      have h2 : catalogPairs rest = (f, pm) :: tail := by
        simpa [catalogPairs, hg] using h
      obtain ⟨ext, he⟩ := folderLoop_first_region env p rest f pm tail h2
      exact ⟨ext, by simpa [folderLoop, hg, placemarkLoop] using he⟩
    | cons q qs =>
      have hq : q = pm := by
        simp only [catalogPairs, List.flatMap_cons, hg, List.map_cons, List.cons_append,
          List.cons.injEq, Prod.mk.injEq] at h
        exact h.1.2
      subst hq
      obtain ⟨e1, h1⟩ := placemarkLoop_cons_out env p g q qs initState
      simp only [folderLoop, hg]
      cases hs : placemarkLoop env p g (q :: qs) initState with
      | next s1 =>
        rw [hs] at h1
        obtain ⟨e2, h2⟩ := folderLoop_out env p rest s1
        simp only [Flow.state] at h1
        exact ⟨e1 ++ e2, by rw [h2, h1]; simp⟩
      | continueFolder s1 =>
        rw [hs] at h1
        obtain ⟨e2, h2⟩ := folderLoop_out env p rest s1
        simp only [Flow.state] at h1
        exact ⟨e1 ++ e2, by rw [h2, h1]; simp⟩
      | panic s1 =>
        rw [hs] at h1
        simp only [Flow.state] at h1
        exact ⟨e1, h1⟩



theorem zeroStampCatalog_report :
    report zeroStampEnv ⟨2, 2⟩ zeroStampCatalog
      = { out := [.matchLine "Risk of tornado within 25 miles: 2 %"], panicked := false } := by
  simp [report, zeroStampCatalog, folderLoop, placemarkLoop, placemarkStep, holeLoop, announce,
    zeroStampPlacemark, zeroStampEnv, sampleSquare_coords, centre_in_square,
    kmlPlacemark.Begin, kmlPlacemark.End, zeroStampParseTime, zeroTime, Tag_eq]
  decide

/-- C12, as stated, fails: the time stamp `0001-01-01T00:00:00Z` parses, to the zero time;
a first region with that begin and end is not announced, and its match line is the first
line of the report. -/
theorem zero_interval_not_announced :
    zeroStampEnv.parseTime zeroStampPlacemark.BeginStr = some zeroTime ∧
    zeroStampEnv.parseTime zeroStampPlacemark.EndStr = some zeroTime ∧
    catalogPairs zeroStampCatalog
      = [({ Name := "day1otlk_20130519_1630_torn", Placemarks := [zeroStampPlacemark] },
          zeroStampPlacemark)] ∧
    (report zeroStampEnv ⟨2, 2⟩ zeroStampCatalog).panicked = false ∧
    announcements (report zeroStampEnv ⟨2, 2⟩ zeroStampCatalog).out = [] ∧
    (report zeroStampEnv ⟨2, 2⟩ zeroStampCatalog).out
      = [.matchLine "Risk of tornado within 25 miles: 2 %"] := by
  refine ⟨by decide, by decide, by decide, ?_, ?_, ?_⟩ <;> rw [zeroStampCatalog_report]
  rfl

/-- C12, amended: the remembered interval starts as the pair of zero times; for every
catalog whose first region has an interval, as read, different from that pair, the first
line of the report is the announcement of that interval, so it stands before every match
line. -/
theorem first_region_announced (env : Env) (p : Coord) (folders : List kmlFolder)
    (f : kmlFolder) (pm : kmlPlacemark) (tail : List (kmlFolder × kmlPlacemark))
    (hfirst : catalogPairs folders = (f, pm) :: tail)
    (hne : intervalOf env pm ≠ (zeroTime, zeroTime)) :
    (initState.beginT, initState.endT) = (zeroTime, zeroTime) ∧
    ∃ rest, (report env p folders).out
      = .valid (intervalOf env pm).1 (intervalOf env pm).2 :: rest := by
  refine ⟨rfl, ?_⟩
  obtain ⟨ext, he⟩ := folderLoop_first_region env p folders f pm tail hfirst
  have ha : (announce env.parseTime pm initState).out
      = [.valid (intervalOf env pm).1 (intervalOf env pm).2] := by
    rw [announce_out]
    rw [if_neg (show ¬ intervalOf env pm = (initState.beginT, initState.endT) from hne)]
    rfl
  rw [ha] at he
  rw [report_eq]
  cases hfl : folderLoop env p folders initState with
  | mk s b =>
    rw [hfl] at he
    simp only at he
    cases b with
    | true => exact ⟨ext, by simpa using he⟩
    | false =>
      by_cases hn : s.noSignWeather = true
      · exact ⟨ext ++ [.noThreat], by simp [hn, he]⟩
      · exact ⟨ext, by simp [hn, he]⟩

theorem first_region_announced_witness :
    catalogPairs plainCatalog
      = [({ Name := "day1otlk_20130519_1630_torn", Placemarks := [plainPlacemark] },
          plainPlacemark)] ∧
    intervalOf sampleEnv plainPlacemark ≠ (zeroTime, zeroTime) ∧
    ∃ rest, (report sampleEnv ⟨2, 2⟩ plainCatalog).out
      = .valid (intervalOf sampleEnv plainPlacemark).1 (intervalOf sampleEnv plainPlacemark).2
          :: rest :=
  ⟨by decide, by decide,
   (first_region_announced sampleEnv ⟨2, 2⟩ plainCatalog
     { Name := "day1otlk_20130519_1630_torn", Placemarks := [plainPlacemark] }
     plainPlacemark [] (by decide) (by decide)).2⟩



/-! ## C13: a ring whose coordinate string fails to parse -/

theorem brokenRing_coords :
    brokenRingPlacemark.Outer.Coords sampleParseFloat = some (rectRing 0 0 4 4, true) := by
  decide

theorem brokenRingCatalog_report :
    report sampleEnv ⟨2, 2⟩ brokenRingCatalog
      = { out := [.valid 63504577800 63504648000,
                  .matchLine "Risk of tornado within 25 miles: 5 %"],
          panicked := false } := by
  simp [report, brokenRingCatalog, folderLoop, placemarkLoop, placemarkStep, holeLoop, announce,
    sampleEnv, brokenRing_coords, centre_in_square,
    kmlPlacemark.Begin, kmlPlacemark.End, sampleParseTime, zeroTime, Tag_eq]
  simp [brokenRingPlacemark, sampleParseTime]
  decide

/-- C13, as stated, fails: the outer ring of the sample placemark is the square followed
by the token `x,y`; `Coords` returns the five vertices of the square together with an
error, and the point `(2,2)` is reported as a match. -/
theorem unparsed_ring_reported :
    brokenRingPlacemark.Outer.Coords sampleEnv.parseFloat
      = some (rectRing 0 0 4 4, true) ∧
    (report sampleEnv ⟨2, 2⟩ brokenRingCatalog).panicked = false ∧
    matchLines (report sampleEnv ⟨2, 2⟩ brokenRingCatalog).out
      = [.matchLine "Risk of tornado within 25 miles: 5 %"] := by
  refine ⟨brokenRing_coords, ?_, ?_⟩ <;> rw [brokenRingCatalog_report]
  rfl

theorem visited_singleton (env : Env) (p : Coord) (pm : kmlPlacemark) :
    visited env p [pm] = [pm] := by
  simp [visited]

/-- C13, amended: a region whose outer-ring coordinate string makes `Coords` return an
error is tested against the coordinates parsed before the failure; in a run that does not
panic such a region, when it is not skipped after a hole hit, gets its match line when
the point has a non-zero winding number against those coordinates and a zero winding
number against every inner ring, and a region that is alone in its catalog gets a match
line exactly then. -/
theorem unparsed_ring_tested_on_parsed_part (env : Env) (p : Coord) (name : String)
    (pm : kmlPlacemark) (shape : List Coord)
    (h : pm.Outer.Coords env.parseFloat = some (shape, true)) :
    ringOf env pm.Outer = shape ∧
    (∀ (folders : List kmlFolder) (f : kmlFolder),
      (report env p folders).panicked = false →
      (f, pm) ∈ visitedPairs env p folders →
      contained p shape = true → (∀ r ∈ pm.Inner, contained p (ringOf env r) = false) →
      matchLineOf f pm ∈ (report env p folders).out) ∧
    ((report env p [{ Name := name, Placemarks := [pm] }]).panicked = false →
      (matchLineOf { Name := name, Placemarks := [pm] } pm
          ∈ (report env p [{ Name := name, Placemarks := [pm] }]).out ↔
        contained p shape = true ∧ ∀ r ∈ pm.Inner, contained p (ringOf env r) = false)) := by
  have hr : ringOf env pm.Outer = shape := by simp [ringOf, h]
  have second : ∀ (folders : List kmlFolder) (f : kmlFolder),
      (report env p folders).panicked = false →
      (f, pm) ∈ visitedPairs env p folders →
      contained p shape = true → (∀ r ∈ pm.Inner, contained p (ringOf env r) = false) →
      matchLineOf f pm ∈ (report env p folders).out := by
    intro folders f hp hv hc hholes
    have hm : matchesPoint env p pm = true :=
      (matchesPoint_iff env p pm).mpr ⟨by rw [hr]; exact hc, hholes⟩
    have hmem : matchLineOf f pm ∈ matchLines (report env p folders).out := by
      rw [report_matchLines_of_no_panic env p folders hp]
      exact List.mem_map.mpr ⟨(f, pm), List.mem_filter.mpr ⟨hv, hm⟩, rfl⟩
    exact (List.mem_filter.mp hmem).1
  refine ⟨hr, second, ?_⟩
  intro hp
  constructor
  · intro hmem
    have hml : matchLineOf { Name := name, Placemarks := [pm] } pm
        ∈ matchLines (report env p [{ Name := name, Placemarks := [pm] }]).out :=
      (mem_matchLines _ _).mpr hmem
    obtain ⟨fp, hfp, hm, _⟩ := report_matchLines_sound env p _ _ hml
    obtain ⟨_, hpm⟩ := (mem_catalogPairs _ fp.1 fp.2).mp hfp
    have hf : fp.1 = { Name := name, Placemarks := [pm] } := by
      have := ((mem_catalogPairs _ fp.1 fp.2).mp hfp).1
      simpa using this
    rw [hf] at hpm
    simp only [List.mem_singleton] at hpm
    rw [hpm] at hm
    have := (matchesPoint_iff env p pm).mp hm
    rw [hr] at this
    exact this
  · rintro ⟨hc, hholes⟩
    refine second _ _ hp ?_ hc hholes
    simp [visitedPairs, visited_singleton]

theorem unparsed_ring_tested_on_parsed_part_witness :
    brokenRingPlacemark.Outer.Coords sampleEnv.parseFloat
      = some (rectRing 0 0 4 4, true) ∧
    ringOf sampleEnv brokenRingPlacemark.Outer = rectRing 0 0 4 4 :=
  ⟨brokenRing_coords,
   (unparsed_ring_tested_on_parsed_part sampleEnv ⟨2, 2⟩ "day1otlk_20130519_1630_torn"
     brokenRingPlacemark (rectRing 0 0 4 4) brokenRing_coords).1⟩



/-! ## C7 and C16: the code in float64 -/

set_option maxRecDepth 100000 in
theorem nearEdge_float : windingNumberTestF64 nearEdgePoint nearEdgeTriangle = some (-1) := by
  decide

set_option maxRecDepth 100000 in
theorem thin_float : windingNumberTestF64 thinCentroid thinTriangle = some 0 := by
  decide

theorem square_float :
    windingNumberTestF64 { Lat := ⟨2, 0⟩, Lng := ⟨2, 0⟩ } squareF64 = some 1 := by
  decide

theorem nearEdgeTriangle_exact :
    nearEdgeTriangle.map CoordF64.exact
      = [⟨-4278419646001971 / 2251799813685248, 5404319552844595 / 4503599627370496⟩,
         ⟨3602879701896397 / 1125899906842624, -8782019273372467 / 2251799813685248⟩,
         ⟨3602879701896397 / 1125899906842624, 5⟩,
         ⟨-4278419646001971 / 2251799813685248, 5404319552844595 / 4503599627370496⟩] := by
  simp only [nearEdgeTriangle, List.map, CoordF64.exact, F64.toRat]
  norm_num

theorem nearEdgePoint_exact :
    nearEdgePoint.exact
      = ⟨-3152519739159347 / 2251799813685248, 3152519739159347 / 4503599627370496⟩ := by
  simp only [nearEdgePoint, CoordF64.exact, F64.toRat]
  norm_num



/-- A point strictly on one side of a line that has all vertices on the other side or on
it lies outside the convex hull of the vertices. -/
theorem outsideHull_of_separator (p : Coord) (v : List Coord) (a b r : ℚ)
    (hv : ∀ c ∈ v, a * c.Lat + b * c.Lng ≤ r) (hp : r < a * p.Lat + b * p.Lng) :
    outsideHull p v := by
  unfold outsideHull
  intro hmem
  have hlin : IsLinearMap ℝ (fun w : ℝ × ℝ => (a : ℝ) * w.1 + (b : ℝ) * w.2) :=
    IsLinearMap.mk (fun x y => by simp only [Prod.fst_add, Prod.snd_add]; ring)
      (fun c x => by simp only [Prod.smul_fst, Prod.smul_snd, smul_eq_mul]; ring)
  have hsub : convexHull ℝ
      (Set.image (fun c : Coord => ((c.Lat : ℝ), (c.Lng : ℝ))) {c | c ∈ v})
      ⊆ {w : ℝ × ℝ | (a : ℝ) * w.1 + (b : ℝ) * w.2 ≤ (r : ℝ)} := by
    refine convexHull_min ?_ (convex_halfSpace_le hlin (r : ℝ))
    rintro _ ⟨c, hc, rfl⟩
    have := hv c hc
    show (a : ℝ) * (c.Lat : ℝ) + (b : ℝ) * (c.Lng : ℝ) ≤ (r : ℝ)
    exact_mod_cast this
  have h1 := hsub hmem
  have h2 : (a : ℝ) * (p.Lat : ℝ) + (b : ℝ) * (p.Lng : ℝ) ≤ (r : ℝ) := h1
  have h3 : (r : ℝ) < (a : ℝ) * (p.Lat : ℝ) + (b : ℝ) * (p.Lng : ℝ) := by exact_mod_cast hp
  linarith

theorem nearEdge_outsideHull :
    outsideHull nearEdgePoint.exact (nearEdgeTriangle.map CoordF64.exact) := by
  rw [nearEdgeTriangle_exact, nearEdgePoint_exact]
  refine outsideHull_of_separator _ _ (-22968358099589529) (-22968358099589530)
    (9051025285629556440498583854121 / 562949953421312) ?_ ?_
  · intro c hc
    simp only [List.mem_cons, List.mem_singleton, List.not_mem_nil, or_false] at hc
    rcases hc with rfl | rfl | rfl | rfl <;> norm_num
  · norm_num

theorem nearEdge_closed : closedRing (nearEdgeTriangle.map CoordF64.exact) = true := by
  simp [closedRing, nearEdgeTriangle]

set_option maxRecDepth 100000 in
theorem nearEdge_isLeft_float :
    (isLeftF64 { Lat := ⟨-4278419646001971, -51⟩, Lng := ⟨5404319552844595, -52⟩ }
        { Lat := ⟨3602879701896397, -50⟩, Lng := ⟨-8782019273372467, -51⟩ }
        nearEdgePoint).map (fun l => l.m) = some 0 := by
  decide

/-- C7 on the float64 triangle `[(-1.9,1.2),(3.2,-3.9),(3.2,5),(-1.9,1.2)]` and the float64
point `(-1.4,0.7)`: the ring is closed and the point lies outside the convex hull of its
vertices, so that the value with exact arithmetic is 0, yet in float64 `isLeft` of the
first edge rounds to 0, its crossing is not counted, and `windingNumberTest` returns -1. -/
theorem float_outsideHull_nonzero :
    closedRing (nearEdgeTriangle.map CoordF64.exact) = true ∧
    outsideHull nearEdgePoint.exact (nearEdgeTriangle.map CoordF64.exact) ∧
    windingNumberTest nearEdgePoint.exact (nearEdgeTriangle.map CoordF64.exact) = some 0 ∧
    (isLeftF64 { Lat := ⟨-4278419646001971, -51⟩, Lng := ⟨5404319552844595, -52⟩ }
        { Lat := ⟨3602879701896397, -50⟩, Lng := ⟨-8782019273372467, -51⟩ }
        nearEdgePoint).map (fun l => l.m) = some 0 ∧
    windingNumberTestF64 nearEdgePoint nearEdgeTriangle = some (-1) := by
  refine ⟨nearEdge_closed, nearEdge_outsideHull, ?_, nearEdge_isLeft_float, nearEdge_float⟩
  exact (windingNumberTest_outsideHull _ _ nearEdge_closed nearEdge_outsideHull).1

theorem thinTriangle_exact :
    thinTriangle.map CoordF64.exact
      = [⟨1899456882076447 / 70368744177664, -6513214826024479 / 70368744177664⟩,
         ⟨2889370216463619 / 70368744177664, -8046773696354152 / 70368744177664⟩,
         ⟨2798637408767240 / 70368744177664, -7906211793368131 / 70368744177664⟩,
         ⟨1899456882076447 / 70368744177664, -6513214826024479 / 70368744177664⟩] := by
  simp only [thinTriangle, List.map, CoordF64.exact, F64.toRat]
  norm_num

theorem thinCentroid_exact :
    thinCentroid.exact
      = ⟨2529154835769102 / 70368744177664, -7488733438582254 / 70368744177664⟩ := by
  simp only [thinCentroid, CoordF64.exact, F64.toRat]
  norm_num

theorem thinTriangle_closed : closedRing (thinTriangle.map CoordF64.exact) = true := by
  simp [closedRing, thinTriangle]

theorem thinTriangle_convex : convexRing (thinTriangle.map CoordF64.exact) = true := by
  rw [thinTriangle_exact]
  simp only [convexRing, edges, List.all_cons, List.all_nil, isLeft, Bool.and_true,
    Bool.or_eq_true, Bool.and_eq_true, decide_eq_true_eq]
  left
  norm_num

theorem thinTriangle_nonCollinear : nonCollinear (thinTriangle.map CoordF64.exact) = true := by
  rw [thinTriangle_exact]
  simp only [nonCollinear, List.any_eq_true, decide_eq_true_eq]
  exact ⟨_, List.mem_cons_self _ _, _, List.mem_cons_of_mem _ (List.mem_cons_self _ _), _,
    List.mem_cons_of_mem _ (List.mem_cons_of_mem _ (List.mem_cons_self _ _)),
    by norm_num [isLeft]⟩

theorem thinTriangle_centroid :
    centroid (thinTriangle.map CoordF64.exact) = thinCentroid.exact := by
  rw [thinTriangle_exact, thinCentroid_exact]
  simp only [centroid, List.dropLast, List.map, List.sum_cons, List.sum_nil, List.length]
  norm_num

/-- C16, as stated, fails on the code as it runs: the float64 triangle `thinTriangle` is
closed and convex with its three vertices not on one line, its centroid is the float64
point `thinCentroid`, and in float64 `windingNumberTest` returns 0 there, because `isLeft`
of the edge that crosses upward rounds to 0. -/
theorem float_centroid_not_contained :
    closedRing (thinTriangle.map CoordF64.exact) = true ∧
    convexRing (thinTriangle.map CoordF64.exact) = true ∧
    nonCollinear (thinTriangle.map CoordF64.exact) = true ∧
    centroid (thinTriangle.map CoordF64.exact) = thinCentroid.exact ∧
    windingNumberTestF64 thinCentroid thinTriangle = some 0 :=
  ⟨thinTriangle_closed, thinTriangle_convex, thinTriangle_nonCollinear, thinTriangle_centroid,
   thin_float⟩


end Spc
